import Mathlib

/-!
# Verification of `goagen/gen_client/cli_generator.go`

A shallow embedding of the command-line client generator of goa and of the
download dispatch it generates, followed by the properties proved about it.

Conventions of the embedding.

* A Go string is a Lean `String`; comparisons and slicing are done on its list
  of characters. Go compares and slices bytes: on UTF-8 text byte order and
  code-point order agree, and the only slice taken (`rpath[len(dir):]`) removes
  a prefix that was just checked to be there.
* A Go map is an association list with unique keys; the order of the list is
  one order in which `range` may enumerate the map.
* A Go run-time failure (index out of range, nil dereference) is the result
  `none` of a function returning `Option`.
* The download template writes the texts of its table between double quotes
  without escaping. The generated program holds what these Go literals denote;
  the embedding renders a table only when every such text denotes itself
  (`literalText`) and gives `none` for any other table.
* Functions of the `design` and `codegen` packages that the file calls but
  does not define are parameters (`goify`, `signerType`, `fileServerMethod`,
  the iteration orders) or are modelled under a doc comment saying so.
-/

namespace GenClient

/-! ## Go strings, `sort.Strings`, `strings.Join`, maps -/

/-- Go's `<` on strings, on the character lists: lexicographic. -/
def strLt : List Char → List Char → Bool
  | [], [] => false
  | [], _ :: _ => true
  | _ :: _, [] => false
  | a :: as, b :: bs => if a < b then true else if b < a then false else strLt as bs

/-- Go's `<=` on strings. -/
def strLe (a b : String) : Bool := !(strLt b.data a.data)

/-- Go's `sort.Strings`: the keys in increasing order. -/
def sortStrings (keys : List String) : List String :=
  keys.insertionSort (fun a b => strLe a b = true)

/-- Go's `strings.Join(elems, sep)`. -/
def stringsJoin (elems : List String) (sep : String) : String :=
  sep.intercalate elems

/-- Go's `strings.HasPrefix(s, p)`. -/
def hasPrefix (s p : String) : Bool := p.data.isPrefixOf s.data

/-- Go's `s[n:]`. -/
def sliceFrom (s : String) (n : Nat) : String := String.mk (s.data.drop n)

/-- Go's `path.Split`: the text up to and including the last slash, and the
text after it. -/
def pathSplit (p : String) : String × String :=
  let file := (p.data.reverse.takeWhile (fun c => c != '/')).reverse
  (String.mk (p.data.take (p.data.length - file.length)), String.mk file)

/-- Go's map assignment `m[k] = v`. -/
def mapSet {V : Type} (m : List (String × V)) (k : String) (v : V) : List (String × V) :=
  match m with
  | [] => [(k, v)]
  | (k', v') :: rest => if k' = k then (k, v) :: rest else (k', v') :: mapSet rest k v

/-- The keys of a Go map, in the enumeration order the list stands for. -/
def mapKeys {V : Type} (m : List (String × V)) : List String := m.map Prod.fst

/-! ## The design model, as far as the generator reads it -/

/-- What `joinNames` reads of a parameter's attribute: `a.Type.IsArray()`. -/
structure ParamAttribute where
  IsArray : Bool
deriving DecidableEq, Repr

/-- The type `design.Object`: a map from parameter names to attributes. -/
abbrev Object := List (String × ParamAttribute)

/-- The type `design.AttributeDefinition` of an attribute set: the object of
`att.Type.ToObject()`, the names listed by its validation as required (none
when `Validation` is nil) and the map `NonZeroAttributes`. -/
structure AttributeDefinition where
  ToObject : Object
  Required : List String
  NonZeroAttributes : List (String × Bool)

/-- Modelled from the spec: `AttributeDefinition.IsRequired` is not among the
sources; a parameter is required when the set's validation lists its name. -/
def AttributeDefinition.IsRequired (att : AttributeDefinition) (n : String) : Bool :=
  att.Required.contains n

/-- Modelled from the spec: `AttributeDefinition.IsNonZero` is not among the
sources; it reads the map `NonZeroAttributes`, false for an absent name. -/
def AttributeDefinition.IsNonZero (att : AttributeDefinition) (n : String) : Bool :=
  (att.NonZeroAttributes.lookup n).getD false

/-- The type `design.RouteDefinition`; `FullPath` is the result of
`r.FullPath()`. -/
structure RouteDefinition where
  FullPath : String

/-- The type `design.ActionDefinition`. `PathParams p` is the attribute
`a.PathParams().Type.ToObject()[p]`, `Parent` the name of the resource,
`WebSocket` the result of `action.WebSocket()`. -/
structure ActionDefinition where
  Name : String
  Parent : String
  Routes : List RouteDefinition
  PathParams : String → ParamAttribute
  QueryParams : Option AttributeDefinition
  Headers : Option AttributeDefinition
  WebSocket : Bool

/-- The type `design.FileServerDefinition`. -/
structure FileServerDefinition where
  RequestPath : String
  FilePath : String
deriving DecidableEq, Repr

/-- The type `design.ResourceDefinition`. `Actions` is in the order of
`IterateActions`, `FileServers` in the order of `IterateFileServers`, with
`none` for a nil slice. -/
structure ResourceDefinition where
  Name : String
  Actions : List ActionDefinition
  FileServers : Option (List FileServerDefinition)

/-- The type `design.SecuritySchemeDefinition` (`Type_` is its field `Type`). -/
structure SecuritySchemeDefinition where
  SchemeName : String
  Type_ : String
deriving DecidableEq, Repr

/-- The type `design.APIDefinition`. `Resources` is in the order of
`IterateResources`. -/
structure APIDefinition where
  Resources : List ResourceDefinition
  SecuritySchemes : List SecuritySchemeDefinition

/-! ## `design.WildcardRegex` -/

/-- The class `[a-zA-Z0-9_]`. -/
def isWordChar (c : Char) : Bool := c.isAlphanum || c == '_'

/-- Modelled from the spec: `design.WildcardRegex` is not among the sources; a
wildcard segment is a slash, then `:` or `*`, then a name over `[a-zA-Z0-9_]`.
`wildcardAt s` is the match of that expression at the start of `s`, as (marker,
name), the name being the longest run of name characters. -/
def wildcardAt (s : List Char) : Option (Char × List Char) :=
  match s with
  | c :: m :: cs =>
    if c = '/' ∧ (m = ':' ∨ m = '*') ∧ cs.takeWhile isWordChar ≠ [] then
      some (m, cs.takeWhile isWordChar)
    else none
  | _ => none

/-- A piece of a path: a character outside every match, or one match of the
wildcard expression. -/
inductive Piece where
  | text (c : Char)
  | wildcard (marker : Char) (name : List Char)
deriving DecidableEq, Repr

/-- The successive non-overlapping matches of the wildcard expression, leftmost
first, with the text between them; `skip` counts the characters still covered
by the last match. -/
def matchPieces : List Char → Nat → List Piece
  | [], _ => []
  | _ :: rest, skip + 1 => matchPieces rest skip
  | c :: rest, 0 =>
    match wildcardAt (c :: rest) with
    | some (m, name) => Piece.wildcard m name :: matchPieces rest (name.length + 1)
    | none => Piece.text c :: matchPieces rest 0

/-- The text a piece stands for in the path. -/
def Piece.source : Piece → List Char
  | Piece.text c => [c]
  | Piece.wildcard m name => '/' :: m :: name

/-- The text a piece becomes when matches are replaced by `repl`. -/
def Piece.replaced (repl : List Char) : Piece → List Char
  | Piece.text c => [c]
  | Piece.wildcard _ _ => repl

/-- The capture group of a match. -/
def Piece.capture : Piece → Option String
  | Piece.text _ => none
  | Piece.wildcard _ name => some (String.mk name)

/-- The match a piece stands for: none for a character of plain text. -/
def Piece.asMatch : Piece → Option (Char × List Char)
  | Piece.text _ => none
  | Piece.wildcard m name => some (m, name)

/-- Whether a piece is a match of the wildcard expression. -/
def Piece.isWildcard : Piece → Bool
  | Piece.text _ => false
  | Piece.wildcard _ _ => true

/-- The call `design.WildcardRegex.ReplaceAllLiteralString(src, repl)`. -/
def replaceAllLiteralString (src repl : String) : String :=
  String.mk ((matchPieces src.data 0).map (Piece.replaced repl.data)).flatten

/-- Modelled from the spec: `design.ExtractWildcards` is not among the sources;
it returns the wildcard names of a path, in the order they occur. -/
def ExtractWildcards (path : String) : List String :=
  (matchPieces path.data 0).filterMap Piece.capture

/-- Modelled from the spec: `RouteDefinition.Params` is not among the sources;
it returns the wildcard names of the route's full path. -/
def RouteDefinition.Params (r : RouteDefinition) : List String :=
  ExtractWildcards r.FullPath

/-! ## Route helpers -/

/-- The body of the loop of `defaultRouteParams`: `o[p] = ...; nz[p] = true`. -/
def defaultRouteParamsStep (a : ActionDefinition)
    (acc : Object × List (String × Bool)) (p : String) : Object × List (String × Bool) :=
  (mapSet acc.1 p (a.PathParams p), mapSet acc.2 p true)

/-- The function `defaultRouteParams`: `none` when `a.Routes[0]` is out of
range. The attribute set it returns has no validation. -/
def defaultRouteParams (a : ActionDefinition) : Option AttributeDefinition :=
  match a.Routes with
  | [] => none
  | r :: _ =>
    let acc := r.Params.foldl (defaultRouteParamsStep a) ([], [])
    some { ToObject := acc.1, Required := [], NonZeroAttributes := acc.2 }

/-- The function `defaultRouteTemplate`: `none` when `a.Routes[0]` is out of
range. -/
def defaultRouteTemplate (a : ActionDefinition) : Option String :=
  match a.Routes with
  | [] => none
  | r :: _ => some (replaceAllLiteralString r.FullPath "/%v")

/-! ## `routes` -/

/-- Go's `strings.Replace(s, old, new, 1)` on character lists: the first
occurrence of `old` in `s` becomes `new`; `s` is unchanged when there is
none. -/
def replaceFirst (old new : List Char) : List Char → List Char
  | [] => if old = [] then new else []
  | c :: rest =>
    if old.isPrefixOf (c :: rest) then new ++ (c :: rest).drop old.length
    else c :: replaceFirst old new rest

/-- Go's `strings.Replace(s, old, new, 1)`. -/
def stringsReplaceFirst (s old new : String) : String :=
  String.mk (replaceFirst old.data new.data s.data)

/-- Go's `strings.ToUpper` on a wildcard name: the names are over
`[a-zA-Z0-9_]`, where it changes the letters `a` to `z` only. -/
def stringsToUpper (s : String) : String := String.mk (s.data.map Char.toUpper)

/-- The first submatch (`match[1]`) of every match returned by
`design.WildcardRegex.FindAllStringSubmatch(path, -1)`, in order. -/
def findAllSubmatchNames (path : String) : List String :=
  (matchPieces path.data 0).filterMap Piece.capture

/-- The body of the inner loop of `routes`:
`path = strings.Replace(path, ":"+paramName, strings.ToUpper(paramName), 1)`. -/
def routesStep (path paramName : String) : String :=
  stringsReplaceFirst path (":" ++ paramName) (stringsToUpper paramName)

/-- The path `routes` stores in `paths[i]` for the route `r`. -/
def routePath (r : RouteDefinition) : String :=
  (findAllSubmatchNames r.FullPath).foldl routesStep r.FullPath

/-- The function `routes`: the writes to the buffer, in order. -/
def routes (action : ActionDefinition) : String :=
  let buf := "["
  let buf := if action.Routes.length > 1 then buf ++ "(" else buf
  let buf := buf ++ stringsJoin (action.Routes.map routePath) "|"
  let buf := if action.Routes.length > 1 then buf ++ ")" else buf
  buf ++ "]"

/-- A piece as the specification shows it in the summary of a route: a
wildcard segment becomes its name in upper case, without the marker, and plain
text stays. -/
def Piece.shown : Piece → List Char
  | Piece.text c => [c]
  | Piece.wildcard _ name => '/' :: name.map Char.toUpper

/-- The rendered path of a route in the words of the specification. -/
def shownPath (r : RouteDefinition) : String :=
  String.mk ((matchPieces r.FullPath.data 0).map Piece.shown).flatten

/-! ## `joinNames` -/

/-- The field reference built for the key `n` with attribute `a`
(`fmt.Sprintf("cmd.%s", codegen.Goify(n, true))`, with `&` in front when the
parameter is neither an array, nor required, nor non-zero). -/
def fieldRef (goify : String → String) (att : AttributeDefinition) (n : String)
    (a : ParamAttribute) : String :=
  let field := "cmd." ++ goify n
  if !a.IsArray && !att.IsRequired n && !att.IsNonZero n then "&" ++ field else field

/-- The loop of `joinNames` over the sorted keys of one attribute set, on the
pair (`names`, `optNames`); `none` when `obj[n]` is nil. -/
def joinKeys (goify : String → String) (att : AttributeDefinition) :
    List String → List String × List String → Option (List String × List String)
  | [], acc => some acc
  | n :: keys, acc =>
    match att.ToObject.lookup n with
    | none => none
    | some a =>
      let field := fieldRef goify att n a
      if att.IsRequired n then joinKeys goify att keys (acc.1 ++ [field], acc.2)
      else joinKeys goify att keys (acc.1, acc.2 ++ [field])

/-- The loop of `joinNames` over the attribute sets, on `elems`; a nil set
(`none`) is skipped. -/
def joinElems (goify : String → String) :
    List (Option AttributeDefinition) → List String → Option (List String)
  | [], elems => some elems
  | none :: atts, elems => joinElems goify atts elems
  | some att :: atts, elems =>
    match joinKeys goify att (sortStrings (mapKeys att.ToObject)) ([], []) with
    | none => none
    | some acc => joinElems goify atts ((elems ++ acc.1) ++ acc.2)

/-- The function `joinNames`; `goify n` stands for `codegen.Goify(n, true)`. -/
def joinNames (goify : String → String) (atts : List (Option AttributeDefinition)) :
    Option String :=
  (joinElems goify atts []).map (fun elems => stringsJoin elems ", ")

/-- The argument list the command templates render for the default path:
`{{ $pparams := defaultRouteParams .Action }}` followed by
`{{ joinNames $pparams }}`. -/
def defaultRouteArgs (goify : String → String) (a : ActionDefinition) : Option String :=
  match defaultRouteParams a with
  | none => none
  | some pparams => joinNames goify [some pparams]

/-! ## The download dispatch generated by `downloadCommandTmpl` -/

/-- An entry of the `FileServers` table handed to `downloadCommandTmpl`. -/
structure FileServerEntry where
  IsDir : Bool
  RequestPath : String
  FilePath : String
  FileName : String
  Name : String
  RequestDir : String
deriving DecidableEq, Repr

/-- What the generated `DownloadCommand.Run` does once the dispatch is over:
it calls the file transfer `fnf(ctx, outfile)` of a client method, or the
directory transfer `fnd(ctx, rpath, outfile)`, or returns the error built by
`fmt.Errorf` without calling either. -/
inductive DownloadOutcome where
  | fnf (method : String) (outfile : String)
  | fnd (method : String) (rpath : String) (outfile : String)
  | error (msg : String)
deriving DecidableEq, Repr

/-- Whether a character written between double quotes in a Go source file
stands for itself there: every character but the backslash (which starts an
escape sequence), the double quote (which ends the literal), the line feed, NUL
and the byte order mark (with which the file is not a Go program). -/
def literalChar (c : Char) : Bool :=
  c != Char.ofNat 92 && c != Char.ofNat 34 && c != Char.ofNat 10 &&
    c != Char.ofNat 0 && c != Char.ofNat 65279

/-- The value of the Go string literal the template makes of a text of the
table by writing it between double quotes without escaping: the text itself
when every character stands for itself. The embedding follows no other table:
for a text with an escape sequence, or one that breaks the literal, the result
is `none`. -/
def literalText (s : String) : Option String :=
  if s.data.all literalChar then some s else none

/-- One `if rpath == "..."` of the generated `Run`, with the values of its
literals and the client method it selects. -/
structure FileBlock where
  RequestPath : String
  Name : String
  FileName : String
deriving DecidableEq, Repr

/-- One `if strings.HasPrefix(rpath, "...")` of the generated `Run`, with the
value of its literal, the client method it selects and the number written for
`len .RequestDir`. -/
structure DirBlock where
  RequestDir : String
  Name : String
  Len : Nat
deriving DecidableEq, Repr

/-- The generated method `DownloadCommand.Run`: its blocks, in order. -/
structure DownloadProgram where
  Files : List FileBlock
  Dirs : List DirBlock
deriving DecidableEq, Repr

/-- The first `range .FileServers` of the template: one block per entry that
is not a directory, in the order of the table. -/
def renderFileBlocks : List FileServerEntry → Option (List FileBlock)
  | [] => some []
  | e :: es =>
    if e.IsDir then renderFileBlocks es
    else
      match literalText e.RequestPath, literalText e.FileName, renderFileBlocks es with
      | some p, some f, some bs =>
        some ({ RequestPath := p, Name := e.Name, FileName := f } :: bs)
      | _, _, _ => none

/-- The second `range .FileServers` of the template: one block per directory
entry, in the order of the table; `len .RequestDir` is computed on the text of
the table when the template is rendered. -/
def renderDirBlocks : List FileServerEntry → Option (List DirBlock)
  | [] => some []
  | e :: es =>
    if e.IsDir then
      match literalText e.RequestDir, renderDirBlocks es with
      | some d, some bs =>
        some ({ RequestDir := d, Name := e.Name, Len := e.RequestDir.data.length } :: bs)
      | _, _ => none
    else renderDirBlocks es

/-- The template `downloadCommandTmpl` executed on the table `fileServers`;
`none` when a text of the table is not followed (see `literalText`). The names
of the client methods are taken to be Go identifiers. -/
def renderDownload (fileServers : List FileServerEntry) : Option DownloadProgram :=
  match renderFileBlocks fileServers, renderDirBlocks fileServers with
  | some files, some dirs => some { Files := files, Dirs := dirs }
  | _, _ => none

/-- The blocks `if rpath == "..." { fnf = ...; goto found }`, in order; `none`
when no block is entered. -/
def probeFiles : List FileBlock → String → String → Option DownloadOutcome
  | [], _, _ => none
  | b :: bs, rpath, outfile =>
    if rpath = b.RequestPath then
      some (DownloadOutcome.fnf b.Name (if outfile = "" then b.FileName else outfile))
    else probeFiles bs rpath outfile

/-- What the directory blocks do: no block is entered, or a block is entered
and ends in a transfer, or a block is entered and `rpath[len:]` is out of
range. -/
inductive DirProbe where
  | miss
  | hit (outcome : DownloadOutcome)
  | outOfRange
deriving DecidableEq, Repr

/-- The blocks `if strings.HasPrefix(rpath, "...") { fnd = ...;
rpath = rpath[len:]; ...; goto found }`, in order. -/
def probeDirs : List DirBlock → String → String → DirProbe
  | [], _, _ => DirProbe.miss
  | b :: bs, rpath, outfile =>
    if hasPrefix rpath b.RequestDir then
      if b.Len ≤ rpath.data.length then
        let rest := sliceFrom rpath b.Len
        DirProbe.hit (DownloadOutcome.fnd b.Name rest
          (if outfile = "" then (pathSplit rest).2 else outfile))
      else DirProbe.outOfRange
    else probeDirs bs rpath outfile

/-- The generated method `DownloadCommand.Run`, with `outFile` the field
`cmd.OutFile`. The result is `none` when `args[0]`, `rpath[0]` or `rpath[len:]`
is out of range. -/
def downloadRun (prog : DownloadProgram) (outFile : String)
    (args : List String) : Option DownloadOutcome :=
  match args with
  | [] => none
  | arg :: _ =>
    match arg.data with
    | [] => none
    | c :: _ =>
      let rpath := if c ≠ '/' then "/" ++ arg else arg
      match probeFiles prog.Files rpath outFile with
      | some r => some r
      | none =>
        match probeDirs prog.Dirs rpath outFile with
        | DirProbe.hit r => some r
        | DirProbe.outOfRange => none
        | DirProbe.miss =>
          some (DownloadOutcome.error ("don't know how to download " ++ rpath))

/-- Whether the texts the template writes for an entry are followed: the
request directory of a directory entry, the request path and the file name of
a single-file entry. -/
def entryLiteral (e : FileServerEntry) : Bool :=
  if e.IsDir then e.RequestDir.data.all literalChar
  else e.RequestPath.data.all literalChar && e.FileName.data.all literalChar

/-- The path the dispatch works on, in the words of the specification: the
argument with a slash put in front when it does not start with one. -/
def canonicalPath (arg : String) : String :=
  if arg.data.head? = some '/' then arg else "/" ++ arg

/-- The dispatch in the words of the specification: the first single-file
entry whose request path equals the canonical path; failing that, the first
directory entry whose request directory is a prefix of it, the transfer getting
the path without that prefix; failing that, the error. The output file is the
one given or else the entry's file name (single file) or the last segment of
the remaining path (directory). -/
def downloadReference (fileServers : List FileServerEntry) (outFile : String)
    (arg : String) : DownloadOutcome :=
  let path := canonicalPath arg
  match fileServers.find? (fun e => !e.IsDir && e.RequestPath == path) with
  | some e => DownloadOutcome.fnf e.Name (if outFile = "" then e.FileName else outFile)
  | none =>
    match fileServers.find?
        (fun e => e.IsDir && e.RequestDir.data.isPrefixOf path.data) with
    | some e =>
      let rest := String.mk (path.data.drop e.RequestDir.data.length)
      DownloadOutcome.fnd e.Name rest (if outFile = "" then (pathSplit rest).2 else outFile)
    | none => DownloadOutcome.error ("don't know how to download " ++ path)

/-! ## `generateCommands` -/

/-- The entry `generateCommands` builds for a file server;
`fileServerMethod` stands for `g.fileServerMethod`. -/
def fileServerEntry (fileServerMethod : FileServerDefinition → String)
    (fs : FileServerDefinition) : FileServerEntry :=
  let wcs := ExtractWildcards fs.RequestPath
  let isDir := decide (wcs.length > 0)
  let reqDir := if isDir then (pathSplit fs.RequestPath).1 else ""
  let filename := if isDir then "" else (pathSplit fs.FilePath).2
  { IsDir := isDir, RequestPath := fs.RequestPath, FilePath := fs.FilePath,
    FileName := filename, Name := fileServerMethod fs, RequestDir := reqDir }

/-- The body of the visitor that fills the map `actions`. -/
def groupStep (actions : List (String × List ActionDefinition)) (action : ActionDefinition) :
    List (String × List ActionDefinition) :=
  match actions.lookup action.Name with
  | some as => mapSet actions action.Name (as ++ [action])
  | none => mapSet actions action.Name [action]

/-- The map `actions` of `generateCommands`: the actions of all resources,
visited resource by resource, keyed by name. -/
def groupActions (api : APIDefinition) : List (String × List ActionDefinition) :=
  api.Resources.foldl (fun actions res => res.Actions.foldl groupStep actions) []

/-- The flag `hasDownloads` of `generateCommands`. -/
def hasDownloads (api : APIDefinition) : Bool :=
  api.Resources.foldl
    (fun h res => if (res.FileServers.getD []).length > 0 then true else h) false

/-- The slice `fs` of `generateCommands`: the file servers of all resources. -/
def allFileServers (api : APIDefinition) : List FileServerDefinition :=
  api.Resources.foldl (fun fs res => fs ++ res.FileServers.getD []) []

/-- The actions of an API in the order the traversals visit them. -/
def allActions (api : APIDefinition) : List ActionDefinition :=
  (api.Resources.map (fun res => res.Actions)).flatten

/-- The actions named `n`, in the order the traversals visit them. -/
def actionsNamed (api : APIDefinition) (n : String) : List ActionDefinition :=
  (allActions api).filter (fun a => a.Name == n)

/-- A unit written to the commands file by `generateCommands`. -/
inductive Emitted where
  | commandType (action : ActionDefinition)
  | downloadCommandType
  | registerCommands (actions : List (String × List ActionDefinition)) (hasDownloads : Bool)
  | downloadRun (fileServers : List FileServerEntry)
  | run (action : ActionDefinition) (webSocket : Bool)
  | registerFlags (action : ActionDefinition)

/-- Whether a unit is the declaration of the type `DownloadCommand`. -/
def Emitted.isDownloadCommandType : Emitted → Bool
  | Emitted.downloadCommandType => true
  | _ => false

/-- Whether a unit registers the top-level command `download`. -/
def Emitted.registersDownload : Emitted → Bool
  | Emitted.registerCommands _ h => h
  | _ => false

/-- The table of a unit that is a method `DownloadCommand.Run`. -/
def Emitted.downloadTable : Emitted → Option (List FileServerEntry)
  | Emitted.downloadRun table => some table
  | _ => none

/-- The units written for one resource by the last traversal of
`generateCommands`: the download dispatch when `res.FileServers` is not nil,
then the `Run` and `RegisterFlags` methods of each action. -/
def emitResource (fileServerMethod : FileServerDefinition → String)
    (res : ResourceDefinition) : List Emitted :=
  (match res.FileServers with
    | some fs => [Emitted.downloadRun (fs.map (fileServerEntry fileServerMethod))]
    | none => []) ++
  (res.Actions.map
    (fun action => [Emitted.run action action.WebSocket, Emitted.registerFlags action])).flatten

/-- The function `generateCommands`, as the sequence of units it writes when
no template fails: the command types, the download command type, the
registration function, then the units of each resource. The registration
function registers the `download` command when its flag is set. -/
def generateCommands (fileServerMethod : FileServerDefinition → String)
    (api : APIDefinition) : List Emitted :=
  (api.Resources.map (fun res => res.Actions.map Emitted.commandType)).flatten ++
  (if (allFileServers api).length > 0 then [Emitted.downloadCommandType] else []) ++
  [Emitted.registerCommands (groupActions api) (hasDownloads api)] ++
  (api.Resources.map (emitResource fileServerMethod)).flatten

/-! ## Security signers -/

/-- The function `signerSignature`. -/
def signerSignature (sec : SecuritySchemeDefinition) : String :=
  if sec.Type_ = "basic" then "user, pass string"
  else if sec.Type_ = "apiKey" then "key, format string"
  else if sec.Type_ = "jwt" then "source goaclient.TokenSource"
  else if sec.Type_ = "oauth2" then "source goaclient.TokenSource"
  else ""

/-- The function `signerArgs`. -/
def signerArgs (sec : SecuritySchemeDefinition) : String :=
  if sec.Type_ = "basic" then "user, pass"
  else if sec.Type_ = "apiKey" then "key, format"
  else if sec.Type_ = "jwt" then "source"
  else if sec.Type_ = "oauth2" then "source"
  else ""

/-- The four flags `generateMain` hands to the template of `main`. -/
structure SignerFlags where
  HasSigners : Bool
  HasBasicAuthSigners : Bool
  HasAPIKeySigners : Bool
  HasTokenSigners : Bool
deriving DecidableEq, Repr

/-- The body of the loop of `generateMain` over the security schemes;
`signerType` is the function of that name, defined in another file. -/
def signerFlagsStep (signerType : SecuritySchemeDefinition → String)
    (f : SignerFlags) (s : SecuritySchemeDefinition) : SignerFlags :=
  if signerType s ≠ "" then
    let f := { f with HasSigners := true }
    if s.Type_ = "basic" then { f with HasBasicAuthSigners := true }
    else if s.Type_ = "apiKey" then { f with HasAPIKeySigners := true }
    else if s.Type_ = "jwt" ∨ s.Type_ = "oauth2" then { f with HasTokenSigners := true }
    else f
  else f

/-- The flags computed by `generateMain`. -/
def generateMain (signerType : SecuritySchemeDefinition → String)
    (api : APIDefinition) : SignerFlags :=
  api.SecuritySchemes.foldl (signerFlagsStep signerType)
    { HasSigners := false, HasBasicAuthSigners := false,
      HasAPIKeySigners := false, HasTokenSigners := false }

/-! ## The order of one attribute set, in the words of the specification -/

/-- The attribute of the parameter `n` of an attribute set. -/
def attrOf (att : AttributeDefinition) (n : String) : ParamAttribute :=
  (att.ToObject.lookup n).getD { IsArray := false }

/-- The field reference of the parameter `n` of an attribute set. -/
def fieldOf (goify : String → String) (att : AttributeDefinition) (n : String) : String :=
  fieldRef goify att n (attrOf att n)

/-- The required parameters of an attribute set, in lexical order of name. -/
def requiredParams (att : AttributeDefinition) : List String :=
  (sortStrings (mapKeys att.ToObject)).filter (fun n => att.IsRequired n)

/-- The optional parameters of an attribute set, in lexical order of name. -/
def optionalParams (att : AttributeDefinition) : List String :=
  (sortStrings (mapKeys att.ToObject)).filter (fun n => !att.IsRequired n)

/-- The order stated for several sets: the required parameters of every set,
set after set, then the optional parameters of every set, set after set. -/
def requiredFirstElems (goify : String → String) (atts : List AttributeDefinition) :
    List String :=
  (atts.map (fun att => (requiredParams att).map (fieldOf goify att))).flatten ++
  (atts.map (fun att => (optionalParams att).map (fieldOf goify att))).flatten

/-- The order set by set: for each set in turn, its required parameters and
then its optional parameters. -/
def setBySetElems (goify : String → String) (atts : List AttributeDefinition) :
    List String :=
  (atts.map (fun att =>
    (requiredParams att ++ optionalParams att).map (fieldOf goify att))).flatten

/-! ## Sample inputs -/

/-- A stand-in for `codegen.Goify` that leaves names as they are. -/
def plainGoify (n : String) : String := n

/-- An attribute set with the required parameters `b`, `a` and the optional
parameters `d`, `c`, enumerated in that order. -/
def sampleSet : AttributeDefinition :=
  { ToObject := [("b", { IsArray := false }), ("a", { IsArray := false }),
                 ("d", { IsArray := false }), ("c", { IsArray := false })],
    Required := ["b", "a"],
    NonZeroAttributes := [] }

/-- Query parameters with one optional parameter, `page`. -/
def sampleQueryParams : AttributeDefinition :=
  { ToObject := [("page", { IsArray := false })], Required := [], NonZeroAttributes := [] }

/-- Headers with one required header, `Authorization`. -/
def sampleHeaders : AttributeDefinition :=
  { ToObject := [("Authorization", { IsArray := false })],
    Required := ["Authorization"], NonZeroAttributes := [] }

/-- An attribute set with an optional array `tags`, an optional scalar `limit`,
a required scalar `id` and an optional non-zero scalar `view`. -/
def sampleMixedSet : AttributeDefinition :=
  { ToObject := [("tags", { IsArray := true }), ("limit", { IsArray := false }),
                 ("id", { IsArray := false }), ("view", { IsArray := false })],
    Required := ["id"],
    NonZeroAttributes := [("view", true)] }

/-- An action whose only route is `/widgets/:id/parts/:partId`. -/
def sampleWidgetAction : ActionDefinition :=
  { Name := "show", Parent := "parts",
    Routes := [{ FullPath := "/widgets/:id/parts/:partId" }],
    PathParams := fun _ => { IsArray := false },
    QueryParams := none, Headers := none, WebSocket := false }

/-- An action whose only route is `/users/:userId/posts/:id`. -/
def samplePostAction : ActionDefinition :=
  { Name := "show", Parent := "posts",
    Routes := [{ FullPath := "/users/:userId/posts/:id" }],
    PathParams := fun _ => { IsArray := false },
    QueryParams := none, Headers := none, WebSocket := false }

/-- A table with a directory entry for `/assets/`, a second directory entry
for `/files/` and then a single-file entry for `/files/logo.png`. -/
def sampleTable : List FileServerEntry :=
  [{ IsDir := true, RequestPath := "/assets/*filepath", FilePath := "public/assets",
     FileName := "", Name := "DownloadAssets", RequestDir := "/assets/" },
   { IsDir := true, RequestPath := "/files/*filepath", FilePath := "public/files",
     FileName := "", Name := "DownloadFiles", RequestDir := "/files/" },
   { IsDir := false, RequestPath := "/files/logo.png", FilePath := "public/files/logo.png",
     FileName := "logo.png", Name := "DownloadLogo", RequestDir := "" }]

/-- An action with the given name on the given resource, with the route
`/<resource>`. -/
def sampleAction (name resource : String) : ActionDefinition :=
  { Name := name, Parent := resource,
    Routes := [{ FullPath := "/" ++ resource }],
    PathParams := fun _ => { IsArray := false },
    QueryParams := none, Headers := none, WebSocket := false }

/-- An API with two resources, each declaring an action `list`, the second
also an action `show`. -/
def sampleListAPI : APIDefinition :=
  { Resources :=
      [{ Name := "accounts", Actions := [sampleAction "list" "accounts"], FileServers := none },
       { Name := "bottles",
         Actions := [sampleAction "list" "bottles", sampleAction "show" "bottles"],
         FileServers := none }],
    SecuritySchemes := [] }

/-- A stand-in for `g.fileServerMethod`: the method is named after the file
path. -/
def plainFileServerMethod (fs : FileServerDefinition) : String := "Download " ++ fs.FilePath

/-- An API with two resources, each declaring one file server. -/
def sampleDownloadAPI : APIDefinition :=
  { Resources :=
      [{ Name := "files", Actions := [],
         FileServers := some [{ RequestPath := "/files/logo.png", FilePath := "public/logo.png" }] },
       { Name := "public", Actions := [],
         FileServers := some [{ RequestPath := "/assets/*filepath", FilePath := "public/assets" }] }],
    SecuritySchemes := [] }

/-- A stand-in for `signerType`: the four supported types have a signer. -/
def plainSignerType (s : SecuritySchemeDefinition) : String :=
  if s.Type_ = "basic" then "BasicSigner"
  else if s.Type_ = "apiKey" then "APIKeySigner"
  else if s.Type_ = "jwt" then "JWTSigner"
  else if s.Type_ = "oauth2" then "OAuth2Signer"
  else ""

/-- An API whose only security scheme has the type `saml`. -/
def sampleSamlAPI : APIDefinition :=
  { Resources := [], SecuritySchemes := [{ SchemeName := "sso", Type_ := "saml" }] }

/-- An API with a `basic` scheme, a `saml` scheme and a `jwt` scheme. -/
def sampleSecuredAPI : APIDefinition :=
  { Resources := [],
    SecuritySchemes := [{ SchemeName := "password", Type_ := "basic" },
                        { SchemeName := "sso", Type_ := "saml" },
                        { SchemeName := "token", Type_ := "jwt" }] }

/-- A file server for the directory `/assets/`. -/
def sampleDirServer : FileServerDefinition :=
  { RequestPath := "/assets/*filepath", FilePath := "public/assets" }

/-- A file server for the single file `/files/logo.png`. -/
def sampleFileServer : FileServerDefinition :=
  { RequestPath := "/files/logo.png", FilePath := "public/images/logo.png" }

/-- An action with the given routes. -/
def sampleRoutesAction (paths : List String) : ActionDefinition :=
  { Name := "show", Parent := "files",
    Routes := paths.map (fun p => { FullPath := p }),
    PathParams := fun _ => { IsArray := false },
    QueryParams := none, Headers := none, WebSocket := false }

/-- A table whose single-file entry has a request path with a backslash
followed by `t`, which the Go literal reads as a tabulation. -/
def sampleEscapedTable : List FileServerEntry :=
  [{ IsDir := false, RequestPath := "/a\\tb", FilePath := "public/t.txt",
     FileName := "t.txt", Name := "DownloadT", RequestDir := "" }]

/-! # Theorems -/

/-! ## The order of Go strings -/

theorem strLt_iff_lex (a b : List Char) :
    strLt a b = true ↔ List.Lex (fun x y => x < y) a b := by
  induction a generalizing b with
  | nil => cases b <;> simp [strLt, List.Lex.nil]
  | cons x xs ih =>
    cases b with
    | nil => simp [strLt]
    | cons y ys =>
      simp only [strLt]
      by_cases h1 : x < y
      · simp [h1, List.Lex.rel h1]
      · by_cases h2 : y < x
        · simp only [h1, h2, if_false, if_true]
          constructor
          · intro h; cases h
          · intro h
            cases h with
            | cons h => exact absurd h2 (lt_irrefl _)
            | rel h => exact absurd h h1
        · have hxy : x = y := le_antisymm (not_lt.mp h2) (not_lt.mp h1)
          subst hxy
          simp only [h1, if_false, ih]
          constructor
          · intro h; exact List.Lex.cons h
          · intro h
            cases h with
            | cons h => exact h
            | rel h => exact absurd h h1

theorem strLt_irrefl (a : List Char) : strLt a a = false := by
  have h := irrefl_of (List.Lex (fun x y : Char => x < y)) a
  rw [← strLt_iff_lex] at h
  simpa using h

theorem strLt_trans {a b c : List Char} (h1 : strLt a b = true) (h2 : strLt b c = true) :
    strLt a c = true := by
  rw [strLt_iff_lex] at *
  exact trans_of (List.Lex (fun x y : Char => x < y)) h1 h2

theorem strLt_trichotomy (a b : List Char) :
    strLt a b = true ∨ a = b ∨ strLt b a = true := by
  have h := trichotomous_of (List.Lex (fun x y : Char => x < y)) a b
  simpa only [strLt_iff_lex] using h

theorem strLt_asymm {a b : List Char} (h : strLt a b = true) : strLt b a = false := by
  cases hba : strLt b a with
  | false => rfl
  | true =>
    have := strLt_trans h hba
    rw [strLt_irrefl] at this
    cases this

theorem strLe_total (a b : String) : strLe a b = true ∨ strLe b a = true := by
  unfold strLe
  cases hab : strLt a.data b.data with
  | false => right; simp
  | true => left; simp [strLt_asymm hab]

theorem strLe_trans {a b c : String} (h1 : strLe a b = true) (h2 : strLe b c = true) :
    strLe a c = true := by
  unfold strLe at *
  simp only [Bool.not_eq_true', Bool.not_eq_eq_eq_not, Bool.not_true] at *
  cases hca : strLt c.data a.data with
  | false => rfl
  | true =>
    rcases strLt_trichotomy a.data b.data with h | h | h
    · rw [strLt_trans hca h] at h2; cases h2
    · rw [h] at hca; rw [hca] at h2; cases h2
    · rw [h] at h1; cases h1

theorem strLe_antisymm {a b : String} (h1 : strLe a b = true) (h2 : strLe b a = true) :
    a = b := by
  unfold strLe at *
  simp only [Bool.not_eq_true', Bool.not_eq_eq_eq_not, Bool.not_true] at *
  rcases strLt_trichotomy a.data b.data with h | h | h
  · rw [h] at h2; cases h2
  · exact String.ext h
  · rw [h] at h1; cases h1

theorem strLt_of_strLe_of_ne {a b : String} (h1 : strLe a b = true) (h2 : a ≠ b) :
    strLt a.data b.data = true := by
  unfold strLe at h1
  simp only [Bool.not_eq_true', Bool.not_eq_eq_eq_not, Bool.not_true] at h1
  rcases strLt_trichotomy a.data b.data with h | h | h
  · exact h
  · exact absurd (String.ext h) h2
  · rw [h] at h1; cases h1

theorem strLe_isTotal : IsTotal String (fun a b => strLe a b = true) := ⟨strLe_total⟩

theorem strLe_isTrans : IsTrans String (fun a b => strLe a b = true) :=
  ⟨fun _ _ _ h1 h2 => strLe_trans h1 h2⟩

theorem strLe_isAntisymm : IsAntisymm String (fun a b => strLe a b = true) :=
  ⟨fun _ _ h1 h2 => strLe_antisymm h1 h2⟩

theorem sortStrings_perm (keys : List String) : (sortStrings keys).Perm keys :=
  List.perm_insertionSort _ keys

theorem sortStrings_sorted (keys : List String) :
    (sortStrings keys).Pairwise (fun a b => strLe a b = true) :=
  haveI := strLe_isTotal
  haveI := strLe_isTrans
  List.sorted_insertionSort _ keys

theorem mem_sortStrings {keys : List String} {n : String} :
    n ∈ sortStrings keys ↔ n ∈ keys :=
  (sortStrings_perm keys).mem_iff

/-- Sorting does not depend on the order in which the keys were enumerated. -/
theorem sortStrings_eq_of_perm {k1 k2 : List String} (h : k1.Perm k2) :
    sortStrings k1 = sortStrings k2 :=
  haveI := strLe_isAntisymm
  List.eq_of_perm_of_sorted (r := fun a b => strLe a b = true)
    (((sortStrings_perm k1).trans h).trans (sortStrings_perm k2).symm)
    (sortStrings_sorted k1) (sortStrings_sorted k2)

/-- Distinct keys come out of the sort strictly increasing. -/
theorem sortStrings_strict {keys : List String} (h : keys.Nodup) :
    (sortStrings keys).Pairwise (fun a b => strLt a.data b.data = true) := by
  have hn : (sortStrings keys).Nodup := (sortStrings_perm keys).nodup_iff.mpr h
  have := (sortStrings_sorted keys).and hn
  exact this.imp (fun hab => strLt_of_strLe_of_ne hab.1 hab.2)

/-! ## `joinNames` -/

theorem lookup_isSome_of_mem_keys {V : Type} {m : List (String × V)} {n : String}
    (h : n ∈ mapKeys m) : ∃ v, m.lookup n = some v := by
  induction m with
  | nil => simp [mapKeys] at h
  | cons p rest ih =>
    obtain ⟨k, v⟩ := p
    by_cases hk : n = k
    · subst hk
      exact ⟨v, by simp [List.lookup]⟩
    · have hmem : n ∈ mapKeys rest := by
        simp only [mapKeys, List.map_cons, List.mem_cons] at h
        rcases h with h | h
        · exact absurd h hk
        · exact h
      obtain ⟨w, hw⟩ := ih hmem
      refine ⟨w, ?_⟩
      have : (n == k) = false := by simpa using hk
      simp [List.lookup, this, hw]

theorem lookup_eq_of_mem {V : Type} {m : List (String × V)} (hk : (mapKeys m).Nodup)
    {n : String} {v : V} (h : (n, v) ∈ m) : m.lookup n = some v := by
  induction m with
  | nil => cases h
  | cons p rest ih =>
    obtain ⟨k, w⟩ := p
    simp only [mapKeys, List.map_cons, List.nodup_cons] at hk
    rcases List.mem_cons.mp h with h1 | h2
    · cases h1
      simp [List.lookup]
    · have hne : (n == k) = false := by
        have : n ≠ k := by
          intro hnk
          exact hk.1 (List.mem_map.mpr ⟨(n, v), h2, hnk⟩)
        simpa using this
      simp [List.lookup, hne, ih hk.2 h2]

theorem lookup_perm {V : Type} {m1 m2 : List (String × V)} (hp : m1.Perm m2)
    (hk : (mapKeys m2).Nodup) (n : String) : m1.lookup n = m2.lookup n := by
  have hk1 : (mapKeys m1).Nodup := (hp.map Prod.fst).nodup_iff.mpr hk
  cases h1 : m1.lookup n with
  | none =>
    cases h2 : m2.lookup n with
    | none => rfl
    | some v =>
      have hmem : n ∈ mapKeys m1 := by
        have : n ∈ mapKeys m2 := by
          by_contra hcon
          have : m2.lookup n = none := by
            clear h2 hp hk
            induction m2 with
            | nil => rfl
            | cons p rest ih =>
              obtain ⟨k, w⟩ := p
              simp only [mapKeys, List.map_cons, List.mem_cons, not_or] at hcon
              have hne : (n == k) = false := by simpa using hcon.1
              simp [List.lookup, hne, ih hcon.2]
          rw [this] at h2; cases h2
        exact ((hp.map Prod.fst).mem_iff).mpr this
      obtain ⟨w, hw⟩ := lookup_isSome_of_mem_keys hmem
      rw [hw] at h1; cases h1
  | some v =>
    have hmem : (n, v) ∈ m1 := by
      clear hk1 hp hk
      induction m1 with
      | nil => cases h1
      | cons p rest ih =>
        obtain ⟨k, w⟩ := p
        by_cases hnk : n = k
        · subst hnk
          simp [List.lookup] at h1
          subst h1
          exact List.mem_cons_self _ _
        · have hne : (n == k) = false := by simpa using hnk
          simp only [List.lookup, hne] at h1
          exact List.mem_cons_of_mem _ (ih h1)
    exact (lookup_eq_of_mem hk (hp.mem_iff.mp hmem)).symm

/-- One attribute set: the loop over keys of the object appends the field
references of the required keys to `names` and of the others to `optNames`,
and does not fail. -/
theorem joinKeys_eq (goify : String → String) (att : AttributeDefinition) :
    ∀ (keys : List String) (acc : List String × List String),
      (∀ n ∈ keys, n ∈ mapKeys att.ToObject) →
      joinKeys goify att keys acc =
        some (acc.1 ++ (keys.filter (fun n => att.IsRequired n)).map (fieldOf goify att),
              acc.2 ++ (keys.filter (fun n => !att.IsRequired n)).map (fieldOf goify att)) := by
  intro keys
  induction keys with
  | nil => intro acc _; simp [joinKeys]
  | cons n keys ih =>
    intro acc hmem
    obtain ⟨a, ha⟩ := lookup_isSome_of_mem_keys (hmem n (List.mem_cons_self _ _))
    have hrest : ∀ k ∈ keys, k ∈ mapKeys att.ToObject :=
      fun k hk => hmem k (List.mem_cons_of_mem _ hk)
    have hf : fieldRef goify att n a = fieldOf goify att n := by
      simp [fieldOf, attrOf, ha]
    simp only [joinKeys, ha]
    by_cases hr : att.IsRequired n = true
    · simp [hr, ih _ hrest, hf]
    · have hr2 : att.IsRequired n = false := by simpa using hr
      simp [hr2, ih _ hrest, hf]

theorem joinElems_eq (goify : String → String) :
    ∀ (atts : List (Option AttributeDefinition)) (elems : List String),
      joinElems goify atts elems =
        some (elems ++ setBySetElems goify (atts.filterMap id)) := by
  intro atts
  induction atts with
  | nil => intro elems; simp [joinElems, setBySetElems]
  | cons att atts ih =>
    intro elems
    cases att with
    | none => simp [joinElems, ih]
    | some att =>
      have hk := joinKeys_eq goify att (sortStrings (mapKeys att.ToObject)) ([], [])
        (fun n hn => mem_sortStrings.mp hn)
      simp only [joinElems, hk, ih]
      simp [setBySetElems, requiredParams, optionalParams]

theorem joinNames_eq (goify : String → String) (atts : List (Option AttributeDefinition)) :
    joinNames goify atts =
      some (stringsJoin (setBySetElems goify (atts.filterMap id)) ", ") := by
  simp [joinNames, joinElems_eq]

theorem setBySetElems_single (goify : String → String) (att : AttributeDefinition) :
    setBySetElems goify (List.filterMap id [some att]) =
      (requiredParams att ++ optionalParams att).map (fieldOf goify att) := by
  simp [setBySetElems]

theorem joinElems_single (goify : String → String) (att : AttributeDefinition) :
    joinElems goify [some att] [] =
      some ((requiredParams att ++ optionalParams att).map (fieldOf goify att)) := by
  rw [joinElems_eq, setBySetElems_single, List.nil_append]

theorem fieldOf_cases (goify : String → String) (att : AttributeDefinition) (n : String) :
    fieldOf goify att n = "cmd." ++ goify n ∨
      fieldOf goify att n = "&" ++ ("cmd." ++ goify n) := by
  unfold fieldOf fieldRef
  split
  · right; rfl
  · left; rfl

theorem fieldOf_perm (goify : String → String) (att : AttributeDefinition) (obj : Object)
    (hp : obj.Perm att.ToObject) (hk : (mapKeys att.ToObject).Nodup) (n : String) :
    fieldOf goify { att with ToObject := obj } n = fieldOf goify att n := by
  simp only [fieldOf, attrOf, fieldRef, lookup_perm hp hk n,
    AttributeDefinition.IsRequired, AttributeDefinition.IsNonZero]

/-- C1: for one attribute set with uniquely named parameters, `joinNames`
returns the field references, joined by a comma and a blank, of the required
parameters in increasing order of name followed by the optional parameters in
increasing order of name; every parameter is listed exactly once; and the
result is the same for every order in which the keys of the object are
enumerated. -/
theorem joinNames_single_set (goify : String → String) (att : AttributeDefinition)
    (hk : (mapKeys att.ToObject).Nodup) :
    joinNames goify [some att] =
        some (stringsJoin
          ((requiredParams att ++ optionalParams att).map (fieldOf goify att)) ", ")
    ∧ (requiredParams att ++ optionalParams att).Perm (mapKeys att.ToObject)
    ∧ (∀ n, n ∈ requiredParams att ↔ n ∈ mapKeys att.ToObject ∧ att.IsRequired n = true)
    ∧ (∀ n, n ∈ optionalParams att ↔ n ∈ mapKeys att.ToObject ∧ att.IsRequired n = false)
    ∧ (requiredParams att).Pairwise (fun a b => strLt a.data b.data = true)
    ∧ (optionalParams att).Pairwise (fun a b => strLt a.data b.data = true)
    ∧ (∀ n, fieldOf goify att n = "cmd." ++ goify n ∨
        fieldOf goify att n = "&" ++ ("cmd." ++ goify n))
    ∧ (∀ obj : Object, obj.Perm att.ToObject →
        joinNames goify [some { att with ToObject := obj }] = joinNames goify [some att]) := by
  refine ⟨?_, ?_, ?_, ?_, ?_, ?_, fieldOf_cases goify att, ?_⟩
  · simp [joinNames_eq, setBySetElems]
  · exact (List.filter_append_perm _ _).trans (sortStrings_perm _)
  · intro n
    simp [requiredParams, mem_sortStrings]
  · intro n
    simp [optionalParams, mem_sortStrings]
  · exact (sortStrings_strict hk).sublist (List.filter_sublist _)
  · exact (sortStrings_strict hk).sublist (List.filter_sublist _)
  · intro obj hp
    have hs : sortStrings (mapKeys obj) = sortStrings (mapKeys att.ToObject) :=
      sortStrings_eq_of_perm (hp.map Prod.fst)
    have hf : fieldOf goify { att with ToObject := obj } = fieldOf goify att :=
      funext (fieldOf_perm goify att obj hp hk)
    have hr : requiredParams { att with ToObject := obj } = requiredParams att := by
      simp only [requiredParams, hs, AttributeDefinition.IsRequired]
    have ho : optionalParams { att with ToObject := obj } = optionalParams att := by
      simp only [optionalParams, hs, AttributeDefinition.IsRequired]
    simp [joinNames_eq, setBySetElems, hr, ho, hf]

/-- C1, at the set with required `b`, `a` and optional `d`, `c`: the names
come out in the order a, b, c, d. -/
theorem joinNames_single_set_witness :
    (mapKeys sampleSet.ToObject).Nodup ∧
    joinNames plainGoify [some sampleSet] = some "cmd.a, cmd.b, &cmd.c, &cmd.d" :=
  ⟨by decide, (joinNames_single_set plainGoify sampleSet (by decide)).1.trans (by decide)⟩

/-- C2 as stated fails: with an optional query parameter `page` and a required
header `Authorization`, `joinNames(QueryParams, Headers)` puts the optional
query parameter first, where the stated order puts the required header
first. -/
theorem joinNames_not_required_first :
    joinNames plainGoify [some sampleQueryParams, some sampleHeaders]
      = some "&cmd.page, cmd.Authorization"
    ∧ stringsJoin (requiredFirstElems plainGoify [sampleQueryParams, sampleHeaders]) ", "
      = "cmd.Authorization, &cmd.page"
    ∧ joinNames plainGoify [some sampleQueryParams, some sampleHeaders]
      ≠ some (stringsJoin
          (requiredFirstElems plainGoify [sampleQueryParams, sampleHeaders]) ", ") := by
  decide

/-- C2, amended: for every list of attribute sets, nil sets skipped,
`joinNames` returns, set after set in the order given, the required parameters
of the set in lexical order followed by the optional parameters of that same
set in lexical order; so `joinNames(QueryParams, Headers)` lists the required
and then the optional query parameters, then the required and then the
optional headers. -/
theorem joinNames_set_by_set (goify : String → String) :
    (∀ atts : List (Option AttributeDefinition),
      joinNames goify atts =
        some (stringsJoin (setBySetElems goify (atts.filterMap id)) ", "))
    ∧ (∀ q h : AttributeDefinition,
      joinNames goify [some q, some h] =
        some (stringsJoin
          ((requiredParams q).map (fieldOf goify q) ++ (optionalParams q).map (fieldOf goify q) ++
           ((requiredParams h).map (fieldOf goify h) ++ (optionalParams h).map (fieldOf goify h)))
          ", ")) := by
  refine ⟨joinNames_eq goify, ?_⟩
  intro q h
  simp [joinNames_eq, setBySetElems]

theorem amp_cmd_ne (g : String) : "&cmd." ++ g ≠ "cmd." ++ g := by
  intro h
  have := congrArg (fun s => s.data.length) h
  simp [String.data_append] at this

theorem amp_cmd_eq (g : String) : "&" ++ ("cmd." ++ g) = "&cmd." ++ g := by
  apply String.ext
  simp [String.data_append]

theorem fieldRef_amp_iff (goify : String → String) (att : AttributeDefinition) (n : String)
    (a : ParamAttribute) :
    fieldRef goify att n a = "&cmd." ++ goify n ↔
      (a.IsArray = false ∧ att.IsRequired n = false ∧ att.IsNonZero n = false) := by
  unfold fieldRef
  by_cases hc : (!a.IsArray && !att.IsRequired n && !att.IsNonZero n) = true
  · simp only [hc, if_true, amp_cmd_eq, true_iff]
    simpa [and_assoc] using hc
  · simp only [hc, Bool.false_eq_true, if_false]
    constructor
    · intro h; exact absurd h.symm (amp_cmd_ne _)
    · intro h; exact absurd (by simp [h]) hc

theorem fieldRef_plain_iff (goify : String → String) (att : AttributeDefinition) (n : String)
    (a : ParamAttribute) :
    fieldRef goify att n a = "cmd." ++ goify n ↔
      ¬ (a.IsArray = false ∧ att.IsRequired n = false ∧ att.IsNonZero n = false) := by
  unfold fieldRef
  by_cases hc : (!a.IsArray && !att.IsRequired n && !att.IsNonZero n) = true
  · simp only [hc, if_true, amp_cmd_eq]
    constructor
    · intro h; exact absurd h (amp_cmd_ne _)
    · intro h; exact absurd (by simpa [and_assoc] using hc) h
  · simp only [hc, Bool.false_eq_true, if_false, true_iff]
    intro h
    exact hc (by simp [h])

/-- C3: for an attribute set with uniquely named parameters, `joinNames` emits
one field reference per parameter, and the reference of a parameter is
`&cmd.Name` exactly when the parameter is not an array, not required and not
marked non-zero, and `cmd.Name` in every other case; so a required parameter
and an array parameter are never passed by reference. -/
theorem joinNames_by_reference (goify : String → String) (att : AttributeDefinition)
    (hk : (mapKeys att.ToObject).Nodup) :
    (∃ order : List (String × ParamAttribute),
      order.Perm att.ToObject ∧
      joinElems goify [some att] [] = some (order.map (fun p => fieldRef goify att p.1 p.2)) ∧
      joinNames goify [some att] =
        some (stringsJoin (order.map (fun p => fieldRef goify att p.1 p.2)) ", "))
    ∧ ∀ p ∈ att.ToObject,
      (fieldRef goify att p.1 p.2 = "&cmd." ++ goify p.1 ↔
        (p.2.IsArray = false ∧ att.IsRequired p.1 = false ∧ att.IsNonZero p.1 = false))
      ∧ (fieldRef goify att p.1 p.2 = "cmd." ++ goify p.1 ↔
        ¬ (p.2.IsArray = false ∧ att.IsRequired p.1 = false ∧ att.IsNonZero p.1 = false))
      ∧ (att.IsRequired p.1 = true ∨ p.2.IsArray = true →
        fieldRef goify att p.1 p.2 = "cmd." ++ goify p.1) := by
  constructor
  · refine ⟨(requiredParams att ++ optionalParams att).map (fun n => (n, attrOf att n)), ?_, ?_, ?_⟩
    · have h1 : ((requiredParams att ++ optionalParams att).map (fun n => (n, attrOf att n))).Perm
          ((mapKeys att.ToObject).map (fun n => (n, attrOf att n))) :=
        ((List.filter_append_perm _ _).trans (sortStrings_perm _)).map _
      have h2 : (mapKeys att.ToObject).map (fun n => (n, attrOf att n)) = att.ToObject := by
        rw [mapKeys, List.map_map]
        conv_rhs => rw [← List.map_id att.ToObject]
        apply List.map_congr_left
        intro p hp
        obtain ⟨n, a⟩ := p
        simp [attrOf, lookup_eq_of_mem hk hp]
      rw [h2] at h1
      exact h1
    · rw [joinElems_single, List.map_map]
      rfl
    · rw [joinNames_eq, setBySetElems_single, List.map_map]
      rfl
  · intro p _
    refine ⟨fieldRef_amp_iff goify att p.1 p.2, fieldRef_plain_iff goify att p.1 p.2, ?_⟩
    intro h
    rw [fieldRef_plain_iff]
    rintro ⟨h1, h2, _⟩
    rcases h with h | h
    · rw [h2] at h; cases h
    · rw [h1] at h; cases h

/-- C3, at a set holding an optional array, an optional scalar, a required
scalar and an optional non-zero scalar: only the optional scalar is passed by
reference. -/
theorem joinNames_by_reference_witness :
    (mapKeys sampleMixedSet.ToObject).Nodup ∧
    joinNames plainGoify [some sampleMixedSet]
      = some "cmd.id, &cmd.limit, cmd.tags, cmd.view" ∧
    (fieldRef plainGoify sampleMixedSet "limit" { IsArray := false } = "&cmd." ++ plainGoify "limit" ↔
      (false = false ∧ sampleMixedSet.IsRequired "limit" = false ∧
        sampleMixedSet.IsNonZero "limit" = false)) :=
  ⟨by decide, by decide,
   ((joinNames_by_reference plainGoify sampleMixedSet (by decide)).2
      ("limit", { IsArray := false }) (by decide)).1⟩

/-! ## The wildcard expression -/

theorem matchPieces_skip (xs ys : List Char) :
    matchPieces (xs ++ ys) xs.length = matchPieces ys 0 := by
  induction xs with
  | nil => rfl
  | cons x xs ih => simpa [matchPieces] using ih

theorem wildcardAt_some {s : List Char} {m : Char} {name : List Char}
    (h : wildcardAt s = some (m, name)) :
    ∃ rest, s = '/' :: m :: (name ++ rest) ∧ (m = ':' ∨ m = '*') ∧ name ≠ [] ∧
      (∀ c ∈ name, isWordChar c = true) := by
  match s, h with
  | [], h => simp [wildcardAt] at h
  | [_], h => simp [wildcardAt] at h
  | c :: k :: cs, h =>
    simp only [wildcardAt] at h
    split at h
    · rename_i hc
      simp only [Option.some.injEq, Prod.mk.injEq] at h
      obtain ⟨hm, hn⟩ := h
      subst hm
      refine ⟨cs.dropWhile isWordChar, ?_, hc.2.1, ?_, ?_⟩
      · rw [← hn, List.takeWhile_append_dropWhile, hc.1]
      · rw [← hn]; exact hc.2.2
      · intro x hx
        rw [← hn] at hx
        exact List.mem_takeWhile_imp hx
    · cases h

theorem matchPieces_cons_some {c : Char} {rest : List Char} {m : Char} {name : List Char}
    (h : wildcardAt (c :: rest) = some (m, name)) :
    ∃ tail, c :: rest = '/' :: m :: (name ++ tail) ∧
      matchPieces (c :: rest) 0 = Piece.wildcard m name :: matchPieces tail 0 := by
  obtain ⟨tail, hs, _⟩ := wildcardAt_some h
  refine ⟨tail, hs, ?_⟩
  have hrest : rest = (m :: name) ++ tail := by
    have := List.tail_eq_of_cons_eq hs
    simpa using this
  have hskip := matchPieces_skip (m :: name) tail
  simp only [matchPieces, h]
  rw [hrest]
  simpa using hskip

theorem matchPieces_cons_none {c : Char} {rest : List Char}
    (h : wildcardAt (c :: rest) = none) :
    matchPieces (c :: rest) 0 = Piece.text c :: matchPieces rest 0 := by
  simp only [matchPieces, h]

/-- The pieces of a text, put together again, are the text. -/
theorem matchPieces_source :
    ∀ (n : Nat) (s : List Char), s.length ≤ n →
      ((matchPieces s 0).map Piece.source).flatten = s := by
  intro n
  induction n with
  | zero =>
    intro s hs
    have : s = [] := List.length_eq_zero.mp (Nat.le_zero.mp hs)
    subst this
    rfl
  | succ n ih =>
    intro s hs
    cases s with
    | nil => rfl
    | cons c rest =>
      cases hw : wildcardAt (c :: rest) with
      | none =>
        rw [matchPieces_cons_none hw]
        simp only [List.map_cons, List.flatten_cons, Piece.source]
        rw [ih rest (by simpa using hs)]
        rfl
      | some mn =>
        obtain ⟨m, name⟩ := mn
        obtain ⟨tail, hs2, hm⟩ := matchPieces_cons_some hw
        rw [hm, hs2]
        simp only [List.map_cons, List.flatten_cons, Piece.source]
        have hlen : tail.length ≤ n := by
          have := congrArg List.length hs2
          simp only [List.length_cons, List.length_append] at this hs
          omega
        rw [ih tail hlen]
        simp

/-- Every piece is what the wildcard expression finds where the piece starts:
a match for a wildcard piece, no match for a character of plain text. -/
theorem matchPieces_leftmost :
    ∀ (n : Nat) (s : List Char), s.length ≤ n →
      ∀ (pre : List Piece) (p : Piece) (post : List Piece),
        matchPieces s 0 = pre ++ p :: post →
        wildcardAt ((p :: post).map Piece.source).flatten = p.asMatch := by
  intro n
  induction n with
  | zero =>
    intro s hs pre p post h
    have : s = [] := List.length_eq_zero.mp (Nat.le_zero.mp hs)
    subst this
    simp [matchPieces] at h
  | succ n ih =>
    intro s hs pre p post h
    cases s with
    | nil => simp [matchPieces] at h
    | cons c rest =>
      cases hw : wildcardAt (c :: rest) with
      | none =>
        have hm := matchPieces_cons_none hw
        cases pre with
        | nil =>
          have hsrc := matchPieces_source (n + 1) (c :: rest) hs
          rw [h] at hsrc
          rw [List.nil_append] at hsrc h
          rw [hsrc, hw]
          rw [hm] at h
          cases h
          rfl
        | cons q pre' =>
          rw [hm] at h
          simp only [List.cons_append, List.cons.injEq] at h
          exact ih rest (by simpa using hs) pre' p post h.2
      | some mn =>
        obtain ⟨m, name⟩ := mn
        obtain ⟨tail, hs2, hm⟩ := matchPieces_cons_some hw
        cases pre with
        | nil =>
          have hsrc := matchPieces_source (n + 1) (c :: rest) hs
          rw [h] at hsrc
          rw [List.nil_append] at hsrc h
          rw [hsrc, hw]
          rw [hm] at h
          cases h
          rfl
        | cons q pre' =>
          rw [hm] at h
          simp only [List.cons_append, List.cons.injEq] at h
          have hlen : tail.length ≤ n := by
            have := congrArg List.length hs2
            simp only [List.length_cons, List.length_append] at this hs
            omega
          exact ih tail hlen pre' p post h.2

/-- Every wildcard piece is a slash, a marker and a name that is not empty. -/
theorem matchPieces_wildcard :
    ∀ (n : Nat) (s : List Char), s.length ≤ n →
      ∀ (m : Char) (name : List Char), Piece.wildcard m name ∈ matchPieces s 0 →
        (m = ':' ∨ m = '*') ∧ name ≠ [] ∧ ∀ c ∈ name, isWordChar c = true := by
  intro n s hs m name hmem
  obtain ⟨pre, post, hsplit⟩ := List.append_of_mem hmem
  have h := matchPieces_leftmost n s hs pre (Piece.wildcard m name) post hsplit
  obtain ⟨_, _, h2, h3, h4⟩ := wildcardAt_some h
  exact ⟨h2, h3, h4⟩

/-! ## Go maps -/

theorem mapKeys_mapSet {V : Type} (m : List (String × V)) (k : String) (v : V) :
    mapKeys (mapSet m k v) = if k ∈ mapKeys m then mapKeys m else mapKeys m ++ [k] := by
  induction m with
  | nil => simp [mapSet, mapKeys]
  | cons p rest ih =>
    obtain ⟨k', v'⟩ := p
    by_cases h : k' = k
    · subst h
      simp [mapSet, mapKeys]
    · have h2 : ¬ k = k' := fun e => h e.symm
      simp only [mapKeys] at ih
      simp only [mapSet, h, if_false, mapKeys, List.map_cons, List.mem_cons, h2, false_or, ih]
      split <;> simp

theorem lookup_mapSet {V : Type} (m : List (String × V)) (k : String) (v : V) (n : String) :
    (mapSet m k v).lookup n = if n = k then some v else m.lookup n := by
  induction m with
  | nil =>
    by_cases h : n = k
    · simp [mapSet, List.lookup, h]
    · have : (n == k) = false := by simpa using h
      simp [mapSet, List.lookup, h, this]
  | cons p rest ih =>
    obtain ⟨k', v'⟩ := p
    by_cases h : k' = k
    · subst h
      by_cases hn : n = k'
      · simp [mapSet, List.lookup, hn]
      · have : (n == k') = false := by simpa using hn
        simp [mapSet, List.lookup, hn, this]
    · simp only [mapSet, h, if_false]
      by_cases hn : n = k'
      · subst hn
        have h2 : ¬ n = k := h
        simp [List.lookup, h2]
      · have : (n == k') = false := by simpa using hn
        simp only [List.lookup, this, ih]

theorem mapSet_nodup {V : Type} (m : List (String × V)) (k : String) (v : V)
    (h : (mapKeys m).Nodup) : (mapKeys (mapSet m k v)).Nodup := by
  rw [mapKeys_mapSet]
  split
  · exact h
  · rename_i hk
    exact List.Nodup.append h (List.nodup_singleton k) (by simpa using hk)

/-- Assigning the keys `ps` one after the other to a map. -/
theorem foldl_mapSet_keys {V : Type} (f : String → V) :
    ∀ (ps : List String) (m : List (String × V)), (mapKeys m).Nodup →
      (mapKeys (ps.foldl (fun acc p => mapSet acc p (f p)) m)).Nodup
      ∧ (∀ n, n ∈ mapKeys (ps.foldl (fun acc p => mapSet acc p (f p)) m) ↔
          n ∈ mapKeys m ∨ n ∈ ps)
      ∧ (∀ n ∈ ps, (ps.foldl (fun acc p => mapSet acc p (f p)) m).lookup n = some (f n))
      ∧ ((mapKeys m ++ ps).Nodup →
          mapKeys (ps.foldl (fun acc p => mapSet acc p (f p)) m) = mapKeys m ++ ps) := by
  intro ps
  induction ps with
  | nil => intro m hm; simp [hm]
  | cons p ps ih =>
    intro m hm
    obtain ⟨h1, h2, h3, h4⟩ := ih (mapSet m p (f p)) (mapSet_nodup m p (f p) hm)
    have hkeys : ∀ n, n ∈ mapKeys (mapSet m p (f p)) ↔ n ∈ mapKeys m ∨ n = p := by
      intro n
      rw [mapKeys_mapSet]
      split
      · rename_i hp
        constructor
        · intro h; exact Or.inl h
        · rintro (h | h)
          · exact h
          · rw [h]; exact hp
      · simp
    refine ⟨h1, ?_, ?_, ?_⟩
    · intro n
      simp only [List.foldl_cons, h2, hkeys, List.mem_cons]
      tauto
    · intro n hn
      simp only [List.foldl_cons]
      by_cases hps : n ∈ ps
      · exact h3 n hps
      · have hnp : n = p := by
          rcases List.mem_cons.mp hn with h | h
          · exact h
          · exact absurd h hps
        subst hnp
        clear h1 h2 h3 h4 ih hn hkeys
        have key : ∀ (qs : List String) (m' : List (String × V)), n ∉ qs →
            (qs.foldl (fun acc p => mapSet acc p (f p)) m').lookup n = m'.lookup n := by
          intro qs
          induction qs with
          | nil => intro m' _; rfl
          | cons q qs ihq =>
            intro m' hq
            simp only [List.mem_cons, not_or] at hq
            simp only [List.foldl_cons]
            rw [ihq _ hq.2, lookup_mapSet]
            simp [hq.1]
        rw [key ps _ hps, lookup_mapSet]
        simp
    · intro hnd
      simp only [List.foldl_cons]
      have hp : p ∉ mapKeys m := by
        intro hmem
        have := List.nodup_append.mp hnd
        exact this.2.2 hmem (List.mem_cons_self _ _)
      have hk : mapKeys (mapSet m p (f p)) = mapKeys m ++ [p] := by
        rw [mapKeys_mapSet]; simp [hp]
      have hnd2 : (mapKeys (mapSet m p (f p)) ++ ps).Nodup := by
        rw [hk]; simpa using hnd
      rw [h4 hnd2, hk]
      simp

theorem defaultRouteParams_fold (a : ActionDefinition) (ps : List String) :
    ∀ acc : Object × List (String × Bool),
      ps.foldl (defaultRouteParamsStep a) acc =
        (ps.foldl (fun o p => mapSet o p (a.PathParams p)) acc.1,
         ps.foldl (fun nz p => mapSet nz p ((fun _ => true) p)) acc.2) := by
  induction ps with
  | nil => intro acc; rfl
  | cons p ps ih => intro acc; simp only [List.foldl_cons, ih, defaultRouteParamsStep]

theorem filterMap_capture_length (pieces : List Piece) :
    (pieces.filterMap Piece.capture).length = (pieces.filter Piece.isWildcard).length := by
  induction pieces with
  | nil => rfl
  | cons p ps ih =>
    cases p with
    | text c => simpa [Piece.capture, Piece.isWildcard] using ih
    | wildcard m name => simpa [Piece.capture, Piece.isWildcard] using ih

/-- C5: for an action with at least one route, the first route's full path
splits into pieces, each a character of plain text or a wildcard segment (a
slash, `:` or `*`, and a name over letters, digits and underscore), found
leftmost and longest; `defaultRouteTemplate` is the path with each wildcard
segment turned into `/%v` and the plain text kept; the keys of
`defaultRouteParams` are exactly the names of the wildcard segments, each
marked non-zero; and when these names are distinct there are as many `/%v` as
keys. -/
theorem defaultRoute_template_and_params (a : ActionDefinition) (r : RouteDefinition)
    (rest : List RouteDefinition) (hr : a.Routes = r :: rest) :
    ∃ (pieces : List Piece) (att : AttributeDefinition),
      (pieces.map Piece.source).flatten = r.FullPath.data
      ∧ (∀ pre p post, pieces = pre ++ p :: post →
          wildcardAt ((p :: post).map Piece.source).flatten = p.asMatch)
      ∧ (∀ m name, Piece.wildcard m name ∈ pieces →
          (m = ':' ∨ m = '*') ∧ name ≠ [] ∧ ∀ c ∈ name, isWordChar c = true)
      ∧ defaultRouteTemplate a =
          some (String.mk (pieces.map (Piece.replaced ['/', '%', 'v'])).flatten)
      ∧ defaultRouteParams a = some att
      ∧ att.Required = []
      ∧ (∀ n, n ∈ mapKeys att.ToObject ↔ n ∈ pieces.filterMap Piece.capture)
      ∧ (mapKeys att.ToObject).Nodup
      ∧ (∀ n ∈ mapKeys att.ToObject, att.IsNonZero n = true)
      ∧ ((pieces.filterMap Piece.capture).Nodup →
          mapKeys att.ToObject = pieces.filterMap Piece.capture
          ∧ (pieces.filter Piece.isWildcard).length = (mapKeys att.ToObject).length) := by
  have hfold := defaultRouteParams_fold a r.Params ([], [])
  obtain ⟨o1, o2, _, o4⟩ := foldl_mapSet_keys a.PathParams r.Params [] (by simp [mapKeys])
  obtain ⟨_, z2, z3, _⟩ :=
    foldl_mapSet_keys (fun _ => true) r.Params [] (by simp [mapKeys])
  refine ⟨matchPieces r.FullPath.data 0,
    { ToObject := (r.Params.foldl (defaultRouteParamsStep a) ([], [])).1, Required := [],
      NonZeroAttributes := (r.Params.foldl (defaultRouteParamsStep a) ([], [])).2 },
    matchPieces_source _ _ le_rfl, matchPieces_leftmost _ _ le_rfl,
    matchPieces_wildcard _ _ le_rfl, ?_, ?_, rfl, ?_, ?_, ?_, ?_⟩
  · simp [defaultRouteTemplate, hr, replaceAllLiteralString]
  · simp [defaultRouteParams, hr]
  · intro n
    simp only [hfold, o2]
    simp [mapKeys, RouteDefinition.Params, ExtractWildcards]
  · simp only [hfold]
    exact o1
  · intro n hn
    simp only [hfold, o2] at hn
    have hn2 : n ∈ r.Params := by simpa [mapKeys] using hn
    simp only [AttributeDefinition.IsNonZero, hfold, z3 n hn2]
    rfl
  · intro hnd
    have hk : mapKeys (r.Params.foldl (defaultRouteParamsStep a) ([], [])).1
        = (matchPieces r.FullPath.data 0).filterMap Piece.capture := by
      simp only [hfold]
      rw [o4 (by simpa [mapKeys, RouteDefinition.Params, ExtractWildcards] using hnd)]
      simp [mapKeys, RouteDefinition.Params, ExtractWildcards]
    refine ⟨hk, ?_⟩
    simp only [hk, filterMap_capture_length]

/-- C5, at the path `/widgets/:id/parts/:partId`: the template is
`/widgets/%v/parts/%v` and the keys are `id` and `partId`. -/
theorem defaultRoute_template_and_params_witness :
    sampleWidgetAction.Routes = [{ FullPath := "/widgets/:id/parts/:partId" }]
    ∧ defaultRouteTemplate sampleWidgetAction = some "/widgets/%v/parts/%v"
    ∧ (defaultRouteParams sampleWidgetAction).map (fun att => mapKeys att.ToObject)
        = some ["id", "partId"]
    ∧ ∃ (pieces : List Piece) (att : AttributeDefinition),
        (pieces.map Piece.source).flatten = "/widgets/:id/parts/:partId".data
        ∧ defaultRouteParams sampleWidgetAction = some att :=
  ⟨rfl, by decide, by decide,
    (defaultRoute_template_and_params sampleWidgetAction
      { FullPath := "/widgets/:id/parts/:partId" } [] rfl).imp
      (fun _ h => h.imp (fun _ h => ⟨h.1, h.2.2.2.2.1⟩))⟩

/-- C4 fails on the code: for the route `/users/:userId/posts/:id` the
template is `/users/%v/posts/%v`, whose first placeholder stands for `userId`,
while the argument list rendered for it names `id` first. -/
theorem defaultRouteArgs_not_in_path_order :
    defaultRouteTemplate samplePostAction = some "/users/%v/posts/%v"
    ∧ ExtractWildcards "/users/:userId/posts/:id" = ["userId", "id"]
    ∧ defaultRouteArgs plainGoify samplePostAction = some "cmd.id, cmd.userId"
    ∧ defaultRouteArgs plainGoify samplePostAction ≠ some "cmd.userId, cmd.id" := by
  decide

/-! ## The download dispatch -/

theorem literalText_of_all {s : String} (h : s.data.all literalChar = true) :
    literalText s = some s := by
  simp only [literalText, h, if_true]

/-- The file blocks rendered for a table whose texts are followed: one per
single-file entry, in order, holding the texts of the entry. -/
theorem renderFileBlocks_eq (table : List FileServerEntry)
    (hlit : ∀ e ∈ table, entryLiteral e = true) :
    renderFileBlocks table =
      some ((table.filter (fun e => !e.IsDir)).map
        (fun e => { RequestPath := e.RequestPath, Name := e.Name, FileName := e.FileName })) := by
  induction table with
  | nil => rfl
  | cons e es ih =>
    have ih2 := ih (fun x hx => hlit x (List.mem_cons_of_mem _ hx))
    have he := hlit e (List.mem_cons_self _ _)
    by_cases hd : e.IsDir = true
    · simp [renderFileBlocks, hd, ih2]
    · have hd2 : e.IsDir = false := by simpa using hd
      simp only [entryLiteral, hd2, Bool.false_eq_true, if_false, Bool.and_eq_true] at he
      simp only [renderFileBlocks, hd2, Bool.false_eq_true, if_false,
        literalText_of_all he.1, literalText_of_all he.2, ih2]
      simp [hd2]

/-- The directory blocks rendered for a table whose texts are followed: one
per directory entry, in order, with the length of its request directory. -/
theorem renderDirBlocks_eq (table : List FileServerEntry)
    (hlit : ∀ e ∈ table, entryLiteral e = true) :
    renderDirBlocks table =
      some ((table.filter (fun e => e.IsDir)).map
        (fun e => { RequestDir := e.RequestDir, Name := e.Name,
                    Len := e.RequestDir.data.length })) := by
  induction table with
  | nil => rfl
  | cons e es ih =>
    have ih2 := ih (fun x hx => hlit x (List.mem_cons_of_mem _ hx))
    have he := hlit e (List.mem_cons_self _ _)
    by_cases hd : e.IsDir = true
    · simp only [entryLiteral, hd, if_true] at he
      simp only [renderDirBlocks, hd, if_true, literalText_of_all he, ih2]
      simp [hd]
    · have hd2 : e.IsDir = false := by simpa using hd
      simp [renderDirBlocks, hd2, ih2]

theorem probeFiles_eq (outfile rpath : String) (table : List FileServerEntry) :
    probeFiles ((table.filter (fun e => !e.IsDir)).map
        (fun e => { RequestPath := e.RequestPath, Name := e.Name, FileName := e.FileName }))
        rpath outfile =
      (table.find? (fun e => !e.IsDir && e.RequestPath == rpath)).map
        (fun e => DownloadOutcome.fnf e.Name (if outfile = "" then e.FileName else outfile)) := by
  induction table with
  | nil => rfl
  | cons e es ih =>
    by_cases hd : e.IsDir = true
    · simp [List.find?_cons, hd, ih]
    · have hd2 : e.IsDir = false := by simpa using hd
      by_cases hp : rpath = e.RequestPath
      · simp [List.find?_cons, probeFiles, hd2, hp]
      · have hp2 : (e.RequestPath == rpath) = false := by
          rw [beq_eq_false_iff_ne]
          exact fun h => hp h.symm
        simp [List.find?_cons, probeFiles, hd2, hp, hp2, ih]

theorem probeDirs_eq (outfile rpath : String) (table : List FileServerEntry) :
    probeDirs ((table.filter (fun e => e.IsDir)).map
        (fun e => { RequestDir := e.RequestDir, Name := e.Name,
                    Len := e.RequestDir.data.length }))
        rpath outfile =
      match table.find? (fun e => e.IsDir && e.RequestDir.data.isPrefixOf rpath.data) with
      | some e =>
        DirProbe.hit (DownloadOutcome.fnd e.Name
          (String.mk (rpath.data.drop e.RequestDir.data.length))
          (if outfile = "" then
            (pathSplit (String.mk (rpath.data.drop e.RequestDir.data.length))).2
           else outfile))
      | none => DirProbe.miss := by
  induction table with
  | nil => rfl
  | cons e es ih =>
    by_cases hd : e.IsDir = true
    · by_cases hp : e.RequestDir.data.isPrefixOf rpath.data = true
      · have hlen : e.RequestDir.data.length ≤ rpath.data.length :=
          (List.isPrefixOf_iff_prefix.mp hp).length_le
        have hlen2 : e.RequestDir.length ≤ rpath.length := hlen
        simp [List.find?_cons, probeDirs, hasPrefix, sliceFrom, hd, hp, hlen2]
      · have hp2 : e.RequestDir.data.isPrefixOf rpath.data = false :=
          Bool.eq_false_iff.mpr hp
        simp only [List.find?_cons, hd, hp2, Bool.true_and]
        rw [← ih]
        simp [probeDirs, hasPrefix, hd, hp2]
    · have hd2 : e.IsDir = false := by simpa using hd
      simp only [List.find?_cons, hd2, Bool.false_and]
      rw [← ih]
      simp [hd2]

theorem canonicalPath_eq {arg : String} {c : Char} {cs : List Char} (h : arg.data = c :: cs) :
    (if c ≠ '/' then "/" ++ arg else arg) = canonicalPath arg := by
  unfold canonicalPath
  rw [h]
  by_cases hc : c = '/'
  · simp [hc]
  · simp [hc]

/-- The program rendered for a table whose texts are followed. -/
theorem renderDownload_eq (table : List FileServerEntry)
    (hlit : ∀ e ∈ table, entryLiteral e = true) :
    renderDownload table = some
      { Files := (table.filter (fun e => !e.IsDir)).map
          (fun e => { RequestPath := e.RequestPath, Name := e.Name, FileName := e.FileName }),
        Dirs := (table.filter (fun e => e.IsDir)).map
          (fun e => { RequestDir := e.RequestDir, Name := e.Name,
                      Len := e.RequestDir.data.length }) } := by
  simp only [renderDownload, renderFileBlocks_eq table hlit, renderDirBlocks_eq table hlit]

theorem downloadRun_eq_reference (table : List FileServerEntry) (prog : DownloadProgram)
    (outFile arg : String) (more : List String)
    (hlit : ∀ e ∈ table, entryLiteral e = true)
    (hprog : renderDownload table = some prog) (h : arg ≠ "") :
    downloadRun prog outFile (arg :: more) = some (downloadReference table outFile arg) := by
  rw [renderDownload_eq table hlit, Option.some.injEq] at hprog
  subst hprog
  have hdata : arg.data ≠ [] := by
    intro hd
    exact h (String.ext hd)
  obtain ⟨c, cs, hcs⟩ := List.exists_cons_of_ne_nil hdata
  unfold downloadRun downloadReference
  simp only [hcs]
  rw [canonicalPath_eq hcs, probeFiles_eq, probeDirs_eq]
  cases hf : table.find? (fun e => !e.IsDir && e.RequestPath == canonicalPath arg) with
  | some e => simp
  | none =>
    cases hg : table.find?
        (fun e => e.IsDir && e.RequestDir.data.isPrefixOf (canonicalPath arg).data) with
    | some e => simp
    | none => simp

theorem find_split {α : Type} (p : α → Bool) (pre : List α) (e : α) (post : List α)
    (he : p e = true) (hpre : ∀ x ∈ pre, p x = false) :
    (pre ++ e :: post).find? p = some e := by
  induction pre with
  | nil => simp [he]
  | cons x xs ih =>
    have hx : p x = false := hpre x (List.mem_cons_self _ _)
    simp only [List.cons_append, List.find?_cons, hx]
    exact ih (fun y hy => hpre y (List.mem_cons_of_mem _ hy))


/-- C6: for a table whose texts the template writes as Go literals that
denote them (no backslash, double quote, line feed, NUL or byte order mark) and
for every argument that is not empty, the template renders a program, and the
generated download dispatch does what the reference does on the canonical path
(the argument, with a slash in front when it has none): the first single-file
entry whose request path equals the path is taken, also when a directory entry
declared before it matches, and a single-file entry is taken for no other
path; failing that, the first directory entry whose request directory is a
prefix of the path is taken, and the transfer gets the path without that
prefix; failing that, the result is the error `don't know how to download`
followed by the path, and no transfer is called. -/
theorem downloadRun_dispatch (table : List FileServerEntry) (outFile arg : String)
    (more : List String) (hlit : ∀ e ∈ table, entryLiteral e = true) (h : arg ≠ "") :
    ∃ prog, renderDownload table = some prog
    ∧ downloadRun prog outFile (arg :: more) = some (downloadReference table outFile arg)
    ∧ (canonicalPath arg).data =
        (if arg.data.head? = some '/' then arg.data else '/' :: arg.data)
    ∧ (∀ pre e post, table = pre ++ e :: post →
        e.IsDir = false → e.RequestPath = canonicalPath arg →
        (∀ x ∈ pre, x.IsDir = false → x.RequestPath ≠ canonicalPath arg) →
        downloadRun prog outFile (arg :: more) =
          some (DownloadOutcome.fnf e.Name (if outFile = "" then e.FileName else outFile)))
    ∧ (∀ m o, downloadRun prog outFile (arg :: more) = some (DownloadOutcome.fnf m o) →
        ∃ e ∈ table, e.IsDir = false ∧ e.RequestPath = canonicalPath arg ∧ e.Name = m)
    ∧ (∀ pre e post, table = pre ++ e :: post →
        e.IsDir = true → e.RequestDir.data <+: (canonicalPath arg).data →
        (∀ x ∈ table, x.IsDir = false → x.RequestPath ≠ canonicalPath arg) →
        (∀ x ∈ pre, x.IsDir = true → ¬ x.RequestDir.data <+: (canonicalPath arg).data) →
        ∃ rest, (canonicalPath arg).data = e.RequestDir.data ++ rest ∧
          downloadRun prog outFile (arg :: more) =
            some (DownloadOutcome.fnd e.Name (String.mk rest)
              (if outFile = "" then (pathSplit (String.mk rest)).2 else outFile)))
    ∧ ((∀ x ∈ table, (x.IsDir = false → x.RequestPath ≠ canonicalPath arg) ∧
          (x.IsDir = true → ¬ x.RequestDir.data <+: (canonicalPath arg).data)) →
        downloadRun prog outFile (arg :: more) =
          some (DownloadOutcome.error ("don't know how to download " ++ canonicalPath arg))) := by
  refine ⟨_, renderDownload_eq table hlit, ?_⟩
  have hrun := downloadRun_eq_reference table _ outFile arg more hlit
    (renderDownload_eq table hlit) h
  refine ⟨hrun, ?_, ?_, ?_, ?_, ?_⟩
  · unfold canonicalPath
    split
    · rfl
    · simp [String.data_append]
  · intro pre e post ht hd hp hpre
    have hfind : table.find? (fun e => !e.IsDir && e.RequestPath == canonicalPath arg)
        = some e := by
      rw [ht]
      apply find_split
      · simp [hd, hp]
      · intro x hx
        by_cases hxd : x.IsDir = true
        · simp [hxd]
        · have hxd2 : x.IsDir = false := by simpa using hxd
          have := hpre x hx hxd2
          simp [hxd2, this]
    rw [hrun]
    simp only [downloadReference, hfind]
  · intro m o hm
    rw [hrun] at hm
    simp only [downloadReference, Option.some.injEq] at hm
    cases hf : table.find? (fun e => !e.IsDir && e.RequestPath == canonicalPath arg) with
    | some e =>
      rw [hf] at hm
      simp only [DownloadOutcome.fnf.injEq] at hm
      have hmem := List.mem_of_find?_eq_some hf
      have hp := List.find?_some hf
      simp only [Bool.and_eq_true, Bool.not_eq_true', beq_iff_eq] at hp
      exact ⟨e, hmem, hp.1, hp.2, hm.1⟩
    | none =>
      rw [hf] at hm
      cases hg : table.find?
          (fun e => e.IsDir && e.RequestDir.data.isPrefixOf (canonicalPath arg).data) with
      | some e => rw [hg] at hm; cases hm
      | none => rw [hg] at hm; cases hm
  · intro pre e post ht hd hp hfiles hpre
    have hf : table.find? (fun e => !e.IsDir && e.RequestPath == canonicalPath arg) = none := by
      rw [List.find?_eq_none]
      intro x hx
      by_cases hxd : x.IsDir = true
      · simp [hxd]
      · have hxd2 : x.IsDir = false := by simpa using hxd
        have := hfiles x hx hxd2
        simp [hxd2, this]
    have hg : table.find?
        (fun e => e.IsDir && e.RequestDir.data.isPrefixOf (canonicalPath arg).data)
        = some e := by
      rw [ht]
      apply find_split
      · simp [hd, List.isPrefixOf_iff_prefix.mpr hp]
      · intro x hx
        by_cases hxd : x.IsDir = true
        · have := hpre x hx hxd
          have h2 : x.RequestDir.data.isPrefixOf (canonicalPath arg).data = false :=
            Bool.eq_false_iff.mpr (fun hc => this (List.isPrefixOf_iff_prefix.mp hc))
          simp [hxd, h2]
        · have hxd2 : x.IsDir = false := by simpa using hxd
          simp [hxd2]
    obtain ⟨rest, hrest⟩ := hp
    refine ⟨rest, hrest.symm, ?_⟩
    rw [hrun]
    simp only [downloadReference, hf, hg]
    have hdrop : (canonicalPath arg).data.drop e.RequestDir.data.length = rest := by
      rw [← hrest]; simp
    rw [hdrop]
  · intro hall
    have hf : table.find? (fun e => !e.IsDir && e.RequestPath == canonicalPath arg) = none := by
      rw [List.find?_eq_none]
      intro x hx
      by_cases hxd : x.IsDir = true
      · simp [hxd]
      · have hxd2 : x.IsDir = false := by simpa using hxd
        have := (hall x hx).1 hxd2
        simp [hxd2, this]
    have hg : table.find?
        (fun e => e.IsDir && e.RequestDir.data.isPrefixOf (canonicalPath arg).data)
        = none := by
      rw [List.find?_eq_none]
      intro x hx
      by_cases hxd : x.IsDir = true
      · have := (hall x hx).2 hxd
        have h2 : x.RequestDir.data.isPrefixOf (canonicalPath arg).data = false :=
          Bool.eq_false_iff.mpr (fun hc => this (List.isPrefixOf_iff_prefix.mp hc))
        simp [hxd, h2]
      · have hxd2 : x.IsDir = false := by simpa using hxd
        simp [hxd2]
    rw [hrun]
    simp only [downloadReference, hf, hg]

/-- C6, on a table that declares the directories `/assets/` and `/files/`
before the file `/files/logo.png`: the file entry is taken for its own path
and not for `/files/logo.png.bak`, the directory entry gets the path without
its prefix, and an unknown path gives the error. -/
theorem downloadRun_dispatch_witness :
    (∀ e ∈ sampleTable, entryLiteral e = true)
    ∧ "/files/logo.png" ≠ ""
    ∧ ∃ prog, renderDownload sampleTable = some prog
      ∧ downloadRun prog "" ["/files/logo.png"]
          = some (DownloadOutcome.fnf "DownloadLogo" "logo.png")
      ∧ downloadRun prog "" ["/files/logo.png.bak"]
          = some (DownloadOutcome.fnd "DownloadFiles" "logo.png.bak" "logo.png.bak")
      ∧ downloadRun prog "" ["assets/js/app.js"]
          = some (DownloadOutcome.fnd "DownloadAssets" "js/app.js" "app.js")
      ∧ downloadRun prog "" ["/other/x"]
          = some (DownloadOutcome.error "don't know how to download /other/x") :=
  ⟨by decide, by decide,
   (downloadRun_dispatch sampleTable "" "/files/logo.png" [] (by decide) (by decide)).imp
     (fun prog hp =>
       ⟨hp.1, hp.2.1.trans (by decide),
        (downloadRun_eq_reference sampleTable prog "" "/files/logo.png.bak" []
          (by decide) hp.1 (by decide)).trans (by decide),
        (downloadRun_eq_reference sampleTable prog "" "assets/js/app.js" []
          (by decide) hp.1 (by decide)).trans (by decide),
        (downloadRun_eq_reference sampleTable prog "" "/other/x" []
          (by decide) hp.1 (by decide)).trans (by decide)⟩)⟩

/-- A table with a backslash in a request path is not followed: the literal
the template writes for it denotes another text. -/
theorem renderDownload_escaped_text :
    entryLiteral
      { IsDir := false, RequestPath := "/a\\tb", FilePath := "public/t.txt",
        FileName := "t.txt", Name := "DownloadT", RequestDir := "" } = false
    ∧ renderDownload sampleEscapedTable = none := by
  decide

/-- The generated `Run` reads `args[0]` and `rpath[0]` without a check: with no
argument, or with an empty first argument, it fails, and every argument after
the first is ignored. -/
theorem downloadRun_arguments (prog : DownloadProgram) (outFile arg : String)
    (more : List String) :
    downloadRun prog outFile [] = none
    ∧ downloadRun prog outFile ("" :: more) = none
    ∧ downloadRun prog outFile (arg :: more) = downloadRun prog outFile [arg] :=
  ⟨rfl, rfl, rfl⟩

/-! ## The grouping of actions by name -/

theorem groupActions_eq_foldl (api : APIDefinition) :
    groupActions api = (allActions api).foldl groupStep [] := by
  unfold groupActions allActions
  rw [List.foldl_flatten, List.foldl_map]

theorem lookup_eq_none_of_not_mem {V : Type} {m : List (String × V)} {n : String}
    (h : n ∉ mapKeys m) : m.lookup n = none := by
  induction m with
  | nil => rfl
  | cons p rest ih =>
    obtain ⟨k, w⟩ := p
    simp only [mapKeys, List.map_cons, List.mem_cons, not_or] at h
    have hne : (n == k) = false := by simpa using h.1
    simp only [List.lookup, hne]
    exact ih h.2

theorem mem_keys_of_lookup {V : Type} {m : List (String × V)} {n : String} {v : V}
    (h : m.lookup n = some v) : n ∈ mapKeys m := by
  by_contra hcon
  rw [lookup_eq_none_of_not_mem hcon] at h
  cases h

theorem mem_of_lookup {V : Type} {m : List (String × V)} {n : String} {v : V}
    (h : m.lookup n = some v) : (n, v) ∈ m := by
  induction m with
  | nil => cases h
  | cons p rest ih =>
    obtain ⟨k, w⟩ := p
    by_cases hnk : n = k
    · subst hnk
      simp [List.lookup] at h
      subst h
      exact List.mem_cons_self _ _
    · have hne : (n == k) = false := by simpa using hnk
      simp only [List.lookup, hne] at h
      exact List.mem_cons_of_mem _ (ih h)

theorem groupStep_lookup (m : List (String × List ActionDefinition)) (a : ActionDefinition)
    (n : String) :
    (groupStep m a).lookup n =
      if n = a.Name then some ((m.lookup a.Name).getD [] ++ [a]) else m.lookup n := by
  unfold groupStep
  cases h : m.lookup a.Name with
  | none => simp [lookup_mapSet]
  | some as => simp [lookup_mapSet]

theorem groupStep_keys (m : List (String × List ActionDefinition)) (a : ActionDefinition) :
    mapKeys (groupStep m a) =
      if a.Name ∈ mapKeys m then mapKeys m else mapKeys m ++ [a.Name] := by
  unfold groupStep
  cases h : m.lookup a.Name with
  | none => simp [mapKeys_mapSet]
  | some as => simp [mapKeys_mapSet]

theorem groupStep_sizes (m : List (String × List ActionDefinition)) (a : ActionDefinition) :
    ((groupStep m a).map (fun p => p.2.length)).sum = (m.map (fun p => p.2.length)).sum + 1 := by
  induction m with
  | nil => simp [groupStep, mapSet, List.lookup]
  | cons p rest ih =>
    obtain ⟨k, v⟩ := p
    by_cases hk : k = a.Name
    · subst hk
      have hstep : groupStep ((a.Name, v) :: rest) a = (a.Name, v ++ [a]) :: rest := by
        simp [groupStep, List.lookup, mapSet]
      rw [hstep]
      simp only [List.map_cons, List.sum_cons, List.length_append, List.length_singleton]
      omega
    · have hb : (a.Name == k) = false := by
        rw [beq_eq_false_iff_ne]
        exact fun h => hk h.symm
      have hstep : groupStep ((k, v) :: rest) a = (k, v) :: groupStep rest a := by
        unfold groupStep
        simp only [List.lookup, hb]
        cases rest.lookup a.Name with
        | none => simp [mapSet, hk]
        | some as => simp [mapSet, hk]
      rw [hstep]
      simp only [List.map_cons, List.sum_cons, ih]
      omega

/-- The map built from the actions `xs` taken in order: its keys are distinct,
the entry of a name is the list of the actions of that name, in order, and the
sizes of the entries add up to the number of actions. -/
theorem foldl_groupStep (xs : List ActionDefinition) :
    (mapKeys (xs.foldl groupStep [])).Nodup
    ∧ (∀ n, n ∈ mapKeys (xs.foldl groupStep []) ↔ n ∈ xs.map (fun a => a.Name))
    ∧ (∀ n, ((xs.foldl groupStep []).lookup n).getD [] = xs.filter (fun a => a.Name == n))
    ∧ (((xs.foldl groupStep []).map (fun p => p.2.length)).sum = xs.length) := by
  induction xs using List.reverseRecOn with
  | nil => simp [mapKeys, List.lookup]
  | append_singleton xs a ih =>
    obtain ⟨h1, h2, h3, h4⟩ := ih
    simp only [List.foldl_append, List.foldl_cons, List.foldl_nil]
    refine ⟨?_, ?_, ?_, ?_⟩
    · rw [groupStep_keys]
      split
      · exact h1
      · rename_i hk
        exact List.Nodup.append h1 (List.nodup_singleton _) (by simpa using hk)
    · intro n
      rw [groupStep_keys]
      split
      · rename_i hk
        rw [h2] at hk ⊢
        simp only [List.map_append, List.map_cons, List.map_nil, List.mem_append,
          List.mem_singleton]
        constructor
        · intro h; exact Or.inl h
        · rintro (h | h)
          · exact h
          · rw [h]; exact hk
      · simp only [List.mem_append, List.mem_singleton, h2, List.map_append, List.map_cons,
          List.map_nil]
    · intro n
      rw [groupStep_lookup]
      by_cases hn : n = a.Name
      · subst hn
        simp [h3, List.filter_append]
      · have hb : (a.Name == n) = false := by
          rw [beq_eq_false_iff_ne]
          exact fun h => hn h.symm
        simp [hn, h3, List.filter_append, hb]
    · rw [groupStep_sizes, h4]
      simp

/-- C7: the map built by `generateCommands` groups the actions by name. Its
keys are distinct and are the names of the actions; the group of a name is the
list of all actions of that name over all resources, in the order of the
traversal, each once; no group is empty; there are as many groups as distinct
action names; and the sizes of the groups add up to the number of actions. -/
theorem groupActions_partition (api : APIDefinition) :
    (mapKeys (groupActions api)).Nodup
    ∧ (∀ n, n ∈ mapKeys (groupActions api) ↔ ∃ a ∈ allActions api, a.Name = n)
    ∧ (∀ n as, (n, as) ∈ groupActions api ↔
        (as = actionsNamed api n ∧ ∃ a ∈ allActions api, a.Name = n))
    ∧ (∀ n as, (n, as) ∈ groupActions api → as ≠ [])
    ∧ (groupActions api).length = ((allActions api).map (fun a => a.Name)).dedup.length
    ∧ ((groupActions api).map (fun p => p.2.length)).sum = (allActions api).length := by
  rw [groupActions_eq_foldl]
  obtain ⟨h1, h2, h3, h4⟩ := foldl_groupStep (allActions api)
  have hmem : ∀ n as, (n, as) ∈ (allActions api).foldl groupStep [] ↔
      (as = actionsNamed api n ∧ ∃ a ∈ allActions api, a.Name = n) := by
    intro n as
    constructor
    · intro hin
      have hl := lookup_eq_of_mem h1 hin
      have h3n := h3 n
      rw [hl] at h3n
      refine ⟨h3n, ?_⟩
      have hk : n ∈ mapKeys ((allActions api).foldl groupStep []) :=
        List.mem_map.mpr ⟨(n, as), hin, rfl⟩
      rw [h2] at hk
      obtain ⟨a, ha, hname⟩ := List.mem_map.mp hk
      exact ⟨a, ha, hname⟩
    · rintro ⟨has, a, ha, hname⟩
      have hk : n ∈ mapKeys ((allActions api).foldl groupStep []) := by
        rw [h2]
        exact List.mem_map.mpr ⟨a, ha, hname⟩
      obtain ⟨v, hv⟩ := lookup_isSome_of_mem_keys hk
      have h3n := h3 n
      rw [hv] at h3n
      have : v = as := by
        rw [has]; exact h3n
      rw [← this]
      exact mem_of_lookup hv
  refine ⟨h1, ?_, hmem, ?_, ?_, h4⟩
  · intro n
    rw [h2]
    simp
  · intro n as hin
    obtain ⟨has, a, ha, hname⟩ := (hmem n as).mp hin
    intro hnil
    have : a ∈ actionsNamed api n := by
      simp [actionsNamed, ha, hname]
    rw [← has, hnil] at this
    cases this
  · have hlen : ((allActions api).foldl groupStep []).length
        = (mapKeys ((allActions api).foldl groupStep [])).length := by
      simp [mapKeys]
    rw [hlen, ← List.toFinset_card_of_nodup h1, ← List.card_toFinset]
    congr 1
    ext n
    simp only [List.mem_toFinset]
    exact h2 n

/-- The grouping on two resources that each declare an action `list`: one
group `list` with the two actions, and one group `show`. -/
theorem groupActions_two_lists :
    (groupActions sampleListAPI).map (fun p => (p.1, p.2.map (fun a => a.Parent)))
      = [("list", ["accounts", "bottles"]), ("show", ["bottles"])] := by
  decide

/-! ## The download command -/

/-- C8 fails on the code: for an API with two resources that each declare a
file server, `generateCommands` writes the type `DownloadCommand` once and
registers the command `download` once, but writes the method
`DownloadCommand.Run` twice, each time with the file servers of one resource
only. -/
theorem generateCommands_two_download_runs :
    ((generateCommands plainFileServerMethod sampleDownloadAPI).filter
        Emitted.isDownloadCommandType).length = 1
    ∧ ((generateCommands plainFileServerMethod sampleDownloadAPI).filter
        Emitted.registersDownload).length = 1
    ∧ ((generateCommands plainFileServerMethod sampleDownloadAPI).filterMap
        Emitted.downloadTable).length = 2
    ∧ ((generateCommands plainFileServerMethod sampleDownloadAPI).filterMap
        Emitted.downloadTable).map (fun table => table.map (fun e => e.RequestPath))
        = [["/files/logo.png"], ["/assets/*filepath"]] := by
  decide

/-! ## Security signers -/

/-- C9: `signerSignature` and `signerArgs` follow the table of variants:
`basic`, `apiKey`, `jwt` and `oauth2` give the signatures and arguments listed,
every other type gives the empty string for both; so the arguments are empty
exactly when the signature is, exactly when the type is none of the four; and
for the four the signature is the arguments followed by a blank and one type
name, that is, it declares the names passed, in the same order. -/
theorem signer_variant_table (sec : SecuritySchemeDefinition) :
    (sec.Type_ = "basic" →
      signerSignature sec = "user, pass string" ∧ signerArgs sec = "user, pass")
    ∧ (sec.Type_ = "apiKey" →
      signerSignature sec = "key, format string" ∧ signerArgs sec = "key, format")
    ∧ (sec.Type_ = "jwt" →
      signerSignature sec = "source goaclient.TokenSource" ∧ signerArgs sec = "source")
    ∧ (sec.Type_ = "oauth2" →
      signerSignature sec = "source goaclient.TokenSource" ∧ signerArgs sec = "source")
    ∧ (sec.Type_ ∉ ["basic", "apiKey", "jwt", "oauth2"] →
      signerSignature sec = "" ∧ signerArgs sec = "")
    ∧ (signerArgs sec = "" ↔ signerSignature sec = "")
    ∧ (signerSignature sec = "" ↔ sec.Type_ ∉ ["basic", "apiKey", "jwt", "oauth2"])
    ∧ (sec.Type_ ∈ ["basic", "apiKey", "jwt", "oauth2"] →
      signerSignature sec = signerArgs sec ++ " string" ∨
      signerSignature sec = signerArgs sec ++ " goaclient.TokenSource") := by
  unfold signerSignature signerArgs
  by_cases h1 : sec.Type_ = "basic"
  · simp only [h1]; decide
  · by_cases h2 : sec.Type_ = "apiKey"
    · simp only [h2]; decide
    · by_cases h3 : sec.Type_ = "jwt"
      · simp only [h3]; decide
      · by_cases h4 : sec.Type_ = "oauth2"
        · simp only [h4]; decide
        · simp [h1, h2, h3, h4]

/-- C9, at the types `basic` and `saml`. -/
theorem signer_variant_table_witness :
    signerSignature { SchemeName := "password", Type_ := "basic" } = "user, pass string"
    ∧ signerArgs { SchemeName := "password", Type_ := "basic" } = "user, pass"
    ∧ signerSignature { SchemeName := "sso", Type_ := "saml" } = ""
    ∧ signerArgs { SchemeName := "sso", Type_ := "saml" } = "" :=
  ⟨((signer_variant_table { SchemeName := "password", Type_ := "basic" }).1 rfl).1,
   ((signer_variant_table { SchemeName := "password", Type_ := "basic" }).1 rfl).2,
   ((signer_variant_table { SchemeName := "sso", Type_ := "saml" }).2.2.2.2.1 (by decide)).1,
   ((signer_variant_table { SchemeName := "sso", Type_ := "saml" }).2.2.2.2.1 (by decide)).2⟩

theorem signerFlagsStep_fields (signerType : SecuritySchemeDefinition → String)
    (f : SignerFlags) (s : SecuritySchemeDefinition) :
    ((signerFlagsStep signerType f s).HasSigners = true ↔
        f.HasSigners = true ∨ signerType s ≠ "")
    ∧ ((signerFlagsStep signerType f s).HasBasicAuthSigners = true ↔
        f.HasBasicAuthSigners = true ∨ (signerType s ≠ "" ∧ s.Type_ = "basic"))
    ∧ ((signerFlagsStep signerType f s).HasAPIKeySigners = true ↔
        f.HasAPIKeySigners = true ∨ (signerType s ≠ "" ∧ s.Type_ = "apiKey"))
    ∧ ((signerFlagsStep signerType f s).HasTokenSigners = true ↔
        f.HasTokenSigners = true ∨
          (signerType s ≠ "" ∧ (s.Type_ = "jwt" ∨ s.Type_ = "oauth2"))) := by
  unfold signerFlagsStep
  by_cases h0 : signerType s = ""
  · simp [h0]
  · by_cases h1 : s.Type_ = "basic"
    · simp [h0, h1]
    · by_cases h2 : s.Type_ = "apiKey"
      · simp [h0, h2]
      · by_cases h3 : s.Type_ = "jwt"
        · simp [h0, h3]
        · by_cases h4 : s.Type_ = "oauth2"
          · simp [h0, h4]
          · simp [h0, h1, h2, h3, h4]

theorem foldl_signerFlagsStep (signerType : SecuritySchemeDefinition → String) :
    ∀ (schemes : List SecuritySchemeDefinition) (f : SignerFlags),
      ((schemes.foldl (signerFlagsStep signerType) f).HasSigners = true ↔
          f.HasSigners = true ∨ ∃ s ∈ schemes, signerType s ≠ "")
      ∧ ((schemes.foldl (signerFlagsStep signerType) f).HasBasicAuthSigners = true ↔
          f.HasBasicAuthSigners = true ∨
            ∃ s ∈ schemes, signerType s ≠ "" ∧ s.Type_ = "basic")
      ∧ ((schemes.foldl (signerFlagsStep signerType) f).HasAPIKeySigners = true ↔
          f.HasAPIKeySigners = true ∨
            ∃ s ∈ schemes, signerType s ≠ "" ∧ s.Type_ = "apiKey")
      ∧ ((schemes.foldl (signerFlagsStep signerType) f).HasTokenSigners = true ↔
          f.HasTokenSigners = true ∨
            ∃ s ∈ schemes, signerType s ≠ "" ∧ (s.Type_ = "jwt" ∨ s.Type_ = "oauth2")) := by
  intro schemes
  induction schemes with
  | nil => intro f; simp
  | cons s rest ih =>
    intro f
    obtain ⟨i1, i2, i3, i4⟩ := ih (signerFlagsStep signerType f s)
    obtain ⟨s1, s2, s3, s4⟩ := signerFlagsStep_fields signerType f s
    simp only [List.foldl_cons, List.mem_cons, exists_eq_or_imp]
    refine ⟨?_, ?_, ?_, ?_⟩
    · rw [i1, s1]; exact or_assoc
    · rw [i2, s2]; exact or_assoc
    · rw [i3, s3]; exact or_assoc
    · rw [i4, s4]; exact or_assoc

/-- C10: over the security schemes scanned by `generateMain`, `HasSigners`
holds exactly when some scheme has a signer type that is not empty,
`HasBasicAuthSigners` when some such scheme has the type `basic`,
`HasAPIKeySigners` when some such scheme has the type `apiKey`,
`HasTokenSigners` when some such scheme has the type `jwt` or `oauth2`. A
scheme without a signer changes no flag, and a list of such schemes leaves the
four flags false. -/
theorem generateMain_flags (signerType : SecuritySchemeDefinition → String)
    (api : APIDefinition) :
    ((generateMain signerType api).HasSigners = true ↔
        ∃ s ∈ api.SecuritySchemes, signerType s ≠ "")
    ∧ ((generateMain signerType api).HasBasicAuthSigners = true ↔
        ∃ s ∈ api.SecuritySchemes, signerType s ≠ "" ∧ s.Type_ = "basic")
    ∧ ((generateMain signerType api).HasAPIKeySigners = true ↔
        ∃ s ∈ api.SecuritySchemes, signerType s ≠ "" ∧ s.Type_ = "apiKey")
    ∧ ((generateMain signerType api).HasTokenSigners = true ↔
        ∃ s ∈ api.SecuritySchemes, signerType s ≠ "" ∧ (s.Type_ = "jwt" ∨ s.Type_ = "oauth2"))
    ∧ (∀ (f : SignerFlags) (s : SecuritySchemeDefinition),
        signerType s = "" → signerFlagsStep signerType f s = f)
    ∧ ((∀ s ∈ api.SecuritySchemes, signerType s = "") →
        generateMain signerType api =
          { HasSigners := false, HasBasicAuthSigners := false,
            HasAPIKeySigners := false, HasTokenSigners := false }) := by
  obtain ⟨h1, h2, h3, h4⟩ := foldl_signerFlagsStep signerType api.SecuritySchemes
    { HasSigners := false, HasBasicAuthSigners := false,
      HasAPIKeySigners := false, HasTokenSigners := false }
  simp only [Bool.false_eq_true, false_or] at h1 h2 h3 h4
  refine ⟨h1, h2, h3, h4, ?_, ?_⟩
  · intro f s hs
    simp [signerFlagsStep, hs]
  · intro hall
    have e1 : (generateMain signerType api).HasSigners = false := by
      rw [← Bool.not_eq_true, generateMain, h1]
      rintro ⟨s, hs, hne⟩
      exact hne (hall s hs)
    have e2 : (generateMain signerType api).HasBasicAuthSigners = false := by
      rw [← Bool.not_eq_true, generateMain, h2]
      rintro ⟨s, hs, hne, _⟩
      exact hne (hall s hs)
    have e3 : (generateMain signerType api).HasAPIKeySigners = false := by
      rw [← Bool.not_eq_true, generateMain, h3]
      rintro ⟨s, hs, hne, _⟩
      exact hne (hall s hs)
    have e4 : (generateMain signerType api).HasTokenSigners = false := by
      rw [← Bool.not_eq_true, generateMain, h4]
      rintro ⟨s, hs, hne, _⟩
      exact hne (hall s hs)
    cases hg : generateMain signerType api with
    | mk a b c d =>
      rw [hg] at e1 e2 e3 e4
      simp only at e1 e2 e3 e4
      rw [e1, e2, e3, e4]

/-- C10, at an API whose only scheme has the type `saml`, which has no
signer: the four flags are false; and at an API with a `basic`, a `saml` and a
`jwt` scheme: all flags but the one for API keys are set. -/
theorem generateMain_flags_witness :
    generateMain plainSignerType sampleSamlAPI =
      { HasSigners := false, HasBasicAuthSigners := false,
        HasAPIKeySigners := false, HasTokenSigners := false }
    ∧ generateMain plainSignerType sampleSecuredAPI =
      { HasSigners := true, HasBasicAuthSigners := true,
        HasAPIKeySigners := false, HasTokenSigners := true } :=
  ⟨(generateMain_flags plainSignerType sampleSamlAPI).2.2.2.2.2 (by decide), by decide⟩

/-! ## The entries of the download table -/

/-- What `path.Split` returns: the two parts make up the path, the second has
no slash, and the first is empty or ends with a slash. -/
theorem pathSplit_spec (p : String) :
    p.data = (pathSplit p).1.data ++ (pathSplit p).2.data
    ∧ '/' ∉ (pathSplit p).2.data
    ∧ ((pathSplit p).1.data = [] ∨ (pathSplit p).1.data.getLast? = some '/') := by
  have hsplit : p.data =
      (p.data.reverse.dropWhile (fun c => c != '/')).reverse ++
        (p.data.reverse.takeWhile (fun c => c != '/')).reverse := by
    rw [← List.reverse_append, List.takeWhile_append_dropWhile, List.reverse_reverse]
  have hdir : (pathSplit p).1.data =
      (p.data.reverse.dropWhile (fun c => c != '/')).reverse := by
    simp only [pathSplit]
    have hlen : p.data.length - (p.data.reverse.takeWhile (fun c => c != '/')).reverse.length
        = (p.data.reverse.dropWhile (fun c => c != '/')).reverse.length := by
      have := congrArg List.length hsplit
      simp only [List.length_append] at this
      omega
    have ht := List.take_left (p.data.reverse.dropWhile (fun c => c != '/')).reverse
      (p.data.reverse.takeWhile (fun c => c != '/')).reverse
    rw [← hsplit] at ht
    rw [hlen]
    exact ht
  have hfile : (pathSplit p).2.data =
      (p.data.reverse.takeWhile (fun c => c != '/')).reverse := rfl
  refine ⟨?_, ?_, ?_⟩
  · rw [hdir, hfile]; exact hsplit
  · rw [hfile]
    intro hmem
    have := List.mem_takeWhile_imp (List.mem_reverse.mp hmem)
    simp at this
  · rw [hdir]
    cases hd : p.data.reverse.dropWhile (fun c => c != '/') with
    | nil => left; rfl
    | cons x xs =>
      right
      rw [List.getLast?_reverse, List.head?_cons]
      have h := List.head?_dropWhile_not (fun c => c != '/') p.data.reverse
      rw [hd] at h
      simp only [List.head?_cons, bne_eq_false_iff_eq] at h
      rw [h]

theorem mem_source_of_wildcard {ps : List Piece} {m : Char} {name : List Char}
    (h : Piece.wildcard m name ∈ ps) : '/' ∈ (ps.map Piece.source).flatten := by
  rw [List.mem_flatten]
  exact ⟨Piece.source (Piece.wildcard m name), List.mem_map_of_mem _ h,
    List.mem_cons_self _ _⟩

theorem extractWildcards_length_pos (path : String) :
    (ExtractWildcards path).length > 0 ↔
      ∃ m name, Piece.wildcard m name ∈ matchPieces path.data 0 := by
  unfold ExtractWildcards
  rw [filterMap_capture_length, gt_iff_lt, List.length_pos_iff_exists_mem]
  constructor
  · rintro ⟨p, hp⟩
    rw [List.mem_filter] at hp
    cases p with
    | text c => simp [Piece.isWildcard] at hp
    | wildcard m name => exact ⟨m, name, hp.1⟩
  · rintro ⟨m, name, h⟩
    exact ⟨Piece.wildcard m name, List.mem_filter.mpr ⟨h, rfl⟩⟩

theorem fileServerEntry_isDir (fileServerMethod : FileServerDefinition → String)
    (fs : FileServerDefinition) :
    (fileServerEntry fileServerMethod fs).IsDir = decide ((ExtractWildcards fs.RequestPath).length > 0) :=
  rfl

theorem fileServerEntry_of_dir (fileServerMethod : FileServerDefinition → String)
    (fs : FileServerDefinition) (h : (ExtractWildcards fs.RequestPath).length > 0) :
    (fileServerEntry fileServerMethod fs).RequestDir = (pathSplit fs.RequestPath).1
    ∧ (fileServerEntry fileServerMethod fs).FileName = "" := by
  simp [fileServerEntry, h]

theorem fileServerEntry_of_file (fileServerMethod : FileServerDefinition → String)
    (fs : FileServerDefinition) (h : ¬ (ExtractWildcards fs.RequestPath).length > 0) :
    (fileServerEntry fileServerMethod fs).RequestDir = ""
    ∧ (fileServerEntry fileServerMethod fs).FileName = (pathSplit fs.FilePath).2 := by
  simp only [fileServerEntry, h, decide_False, Bool.false_eq_true, if_false, and_self]

/-- C11: the entry `generateCommands` builds for a file server is a directory
entry exactly when the request path has a wildcard segment. For a directory
entry the file name is empty and the request directory is the request path up
to and including its last slash; for a single-file entry the request directory
is empty and the file name is what follows the last slash of the file path
(the whole file path when it has no slash). -/
theorem fileServerEntry_kind (fileServerMethod : FileServerDefinition → String)
    (fs : FileServerDefinition) :
    ((fileServerEntry fileServerMethod fs).IsDir = true ↔
        ∃ m name, Piece.wildcard m name ∈ matchPieces fs.RequestPath.data 0)
    ∧ ((fileServerEntry fileServerMethod fs).IsDir = true →
        (fileServerEntry fileServerMethod fs).FileName = ""
        ∧ (fileServerEntry fileServerMethod fs).RequestDir.data.getLast? = some '/'
        ∧ ∃ rest, fs.RequestPath.data =
              (fileServerEntry fileServerMethod fs).RequestDir.data ++ rest
            ∧ '/' ∉ rest)
    ∧ ((fileServerEntry fileServerMethod fs).IsDir = false →
        (fileServerEntry fileServerMethod fs).RequestDir = ""
        ∧ '/' ∉ (fileServerEntry fileServerMethod fs).FileName.data
        ∧ ∃ dir, fs.FilePath.data = dir ++ (fileServerEntry fileServerMethod fs).FileName.data
            ∧ (dir = [] ∨ dir.getLast? = some '/'))
    ∧ (fileServerEntry fileServerMethod fs).RequestPath = fs.RequestPath
    ∧ (fileServerEntry fileServerMethod fs).FilePath = fs.FilePath
    ∧ (fileServerEntry fileServerMethod fs).Name = fileServerMethod fs := by
  refine ⟨?_, ?_, ?_, rfl, rfl, rfl⟩
  · rw [fileServerEntry_isDir, decide_eq_true_iff]
    exact extractWildcards_length_pos fs.RequestPath
  · intro hdir
    rw [fileServerEntry_isDir, decide_eq_true_iff] at hdir
    obtain ⟨hreq, hname⟩ := fileServerEntry_of_dir fileServerMethod fs hdir
    obtain ⟨h1, h2, h3⟩ := pathSplit_spec fs.RequestPath
    obtain ⟨m, name, hmem⟩ := (extractWildcards_length_pos fs.RequestPath).mp hdir
    have hslash : '/' ∈ fs.RequestPath.data := by
      have := mem_source_of_wildcard hmem
      rwa [matchPieces_source _ _ le_rfl] at this
    refine ⟨hname, ?_, (pathSplit fs.RequestPath).2.data, ?_, h2⟩
    · rw [hreq]
      rcases h3 with h3 | h3
      · exfalso
        rw [h1, h3, List.nil_append] at hslash
        exact h2 hslash
      · exact h3
    · rw [hreq]; exact h1
  · intro hfile
    rw [fileServerEntry_isDir, decide_eq_false_iff_not] at hfile
    obtain ⟨hreq, hname⟩ := fileServerEntry_of_file fileServerMethod fs hfile
    obtain ⟨h1, h2, h3⟩ := pathSplit_spec fs.FilePath
    refine ⟨hreq, ?_, (pathSplit fs.FilePath).1.data, ?_, h3⟩
    · rw [hname]; exact h2
    · rw [hname]; exact h1

/-- C11, at the request path `/assets/*filepath`, a directory entry with the
request directory `/assets/`, a prefix of `/assets/js/app.js`, and at the
request path `/files/logo.png` served from `public/images/logo.png`, a
single-file entry with the file name `logo.png`. -/
theorem fileServerEntry_kind_witness :
    fileServerEntry plainFileServerMethod sampleDirServer =
      { IsDir := true, RequestPath := "/assets/*filepath", FilePath := "public/assets",
        FileName := "", Name := "Download public/assets", RequestDir := "/assets/" }
    ∧ hasPrefix "/assets/js/app.js"
        (fileServerEntry plainFileServerMethod sampleDirServer).RequestDir = true
    ∧ fileServerEntry plainFileServerMethod sampleFileServer =
      { IsDir := false, RequestPath := "/files/logo.png",
        FilePath := "public/images/logo.png",
        FileName := "logo.png", Name := "Download public/images/logo.png", RequestDir := "" }
    ∧ (fileServerEntry plainFileServerMethod sampleDirServer).RequestDir.data.getLast?
        = some '/' :=
  ⟨by decide, by decide, by decide,
   ((fileServerEntry_kind plainFileServerMethod sampleDirServer).2.1 (by decide)).2.1⟩

/-! ## `routes` -/

/-- The brackets of `routes`: one route gives `[path]`, two or more give
`[(path|...|path)]`. -/
theorem routes_brackets (action : ActionDefinition) :
    (∀ r, action.Routes = [r] → routes action = "[" ++ routePath r ++ "]")
    ∧ (action.Routes.length > 1 →
        routes action =
          "[" ++ "(" ++ stringsJoin (action.Routes.map routePath) "|" ++ ")" ++ "]") := by
  constructor
  · intro r h
    simp [routes, h, stringsJoin, String.intercalate, String.intercalate.go]
  · intro h
    simp [routes, h]

theorem toUpper_ne_colon {c : Char} (h : c ≠ ':') : c.toUpper ≠ ':' := by
  unfold Char.toUpper
  simp only
  split
  · rename_i hn
    obtain ⟨h1, h2⟩ := hn
    generalize c.toNat = n at h1 h2
    interval_cases n <;> decide
  · exact h

theorem replaceFirst_skip (o : Char) (os new : List Char) :
    ∀ (pre post : List Char), o ∉ pre →
      replaceFirst (o :: os) new (pre ++ (o :: os) ++ post) = pre ++ new ++ post := by
  intro pre
  induction pre with
  | nil =>
    intro post _
    have hp : (o :: os).isPrefixOf ((o :: os) ++ post) = true :=
      List.isPrefixOf_iff_prefix.mpr (List.prefix_append _ _)
    simp only [List.nil_append]
    change replaceFirst (o :: os) new (o :: (os ++ post)) = new ++ post
    have hp2 : (o :: os).isPrefixOf (o :: (os ++ post)) = true := hp
    simp only [replaceFirst, hp2, if_true]
    have hd := List.drop_left (o :: os) post
    simp only [List.cons_append] at hd
    rw [hd]
  | cons a pre ih =>
    intro post hmem
    simp only [List.mem_cons, not_or] at hmem
    have hne : (o == a) = false := by
      rw [beq_eq_false_iff_ne]; exact hmem.1
    have hp : (o :: os).isPrefixOf (a :: (pre ++ (o :: os) ++ post)) = false := by
      rw [List.isPrefixOf_cons₂, hne, Bool.false_and]
    change replaceFirst (o :: os) new (a :: (pre ++ (o :: os) ++ post)) = a :: (pre ++ new ++ post)
    simp only [replaceFirst, hp, Bool.false_eq_true, if_false]
    rw [ih post hmem.2]

theorem routesStep_data (path : List Char) (name : List Char) :
    routesStep (String.mk path) (String.mk name) =
      String.mk (replaceFirst (':' :: name) (name.map Char.toUpper) path) := by
  simp only [routesStep, stringsReplaceFirst, stringsToUpper, String.data_append]
  rfl

/-- The inner loop of `routes` on a text made of pieces whose wildcards all
have the marker `:` and whose plain text has no `:`: every wildcard becomes
its name in upper case and the rest is kept. -/
theorem foldl_routesStep_pieces :
    ∀ (ps : List Piece) (pre : List Char), ':' ∉ pre →
      (∀ m name, Piece.wildcard m name ∈ ps → m = ':' ∧ ∀ c ∈ name, isWordChar c = true) →
      Piece.text ':' ∉ ps →
      (ps.filterMap Piece.capture).foldl routesStep
          (String.mk (pre ++ (ps.map Piece.source).flatten))
        = String.mk (pre ++ (ps.map Piece.shown).flatten) := by
  intro ps
  induction ps with
  | nil => intro pre _ _ _; rfl
  | cons p ps ih =>
    intro pre hpre hw ht
    have hw2 : ∀ m name, Piece.wildcard m name ∈ ps →
        m = ':' ∧ ∀ c ∈ name, isWordChar c = true :=
      fun m name h => hw m name (List.mem_cons_of_mem _ h)
    have ht2 : Piece.text ':' ∉ ps := fun h => ht (List.mem_cons_of_mem _ h)
    cases p with
    | text c =>
      have hc : c ≠ ':' := by
        intro h
        exact ht (by rw [h]; exact List.mem_cons_self _ _)
      have hpre2 : ':' ∉ pre ++ [c] := by
        simp only [List.mem_append, List.mem_singleton, not_or]
        exact ⟨hpre, fun h => hc h.symm⟩
      have := ih (pre ++ [c]) hpre2 hw2 ht2
      simpa [Piece.capture, Piece.source, Piece.shown] using this
    | wildcard m name =>
      obtain ⟨hm, hname⟩ := hw m name (List.mem_cons_self _ _)
      subst hm
      have hpre1 : ':' ∉ pre ++ ['/'] := by
        simp only [List.mem_append, List.mem_singleton, not_or]
        exact ⟨hpre, by decide⟩
      have hup : ':' ∉ name.map Char.toUpper := by
        intro h
        obtain ⟨c, hc, hcu⟩ := List.mem_map.mp h
        have hne : c ≠ ':' := by
          intro hcc
          have := hname c hc
          rw [hcc] at this
          revert this
          decide
        exact toUpper_ne_colon hne hcu
      have hpre2 : ':' ∉ pre ++ '/' :: name.map Char.toUpper := by
        simp only [List.mem_append, List.mem_cons, not_or]
        exact ⟨hpre, by decide, hup⟩
      have hstep := replaceFirst_skip ':' name (name.map Char.toUpper) (pre ++ ['/'])
        ((ps.map Piece.source).flatten) hpre1
      have ih2 := ih (pre ++ '/' :: name.map Char.toUpper) hpre2 hw2 ht2
      simp only [List.filterMap_cons, Piece.capture, List.foldl_cons, List.map_cons,
        List.flatten_cons, Piece.source, Piece.shown, routesStep_data]
      have e1 : pre ++ ('/' :: ':' :: name ++ (ps.map Piece.source).flatten)
          = pre ++ ['/'] ++ (':' :: name) ++ (ps.map Piece.source).flatten := by simp
      have e2 : pre ++ ['/'] ++ name.map Char.toUpper ++ (ps.map Piece.source).flatten
          = pre ++ '/' :: name.map Char.toUpper ++ (ps.map Piece.source).flatten := by simp
      have e3 : pre ++ ('/' :: name.map Char.toUpper ++ (ps.map Piece.shown).flatten)
          = pre ++ '/' :: name.map Char.toUpper ++ (ps.map Piece.shown).flatten := by simp
      rw [e1, hstep, e2, e3]
      exact ih2

/-- For a route whose wildcards all have the marker `:` and whose full path
has no `:` outside them, `routes` renders the path as the specification says:
every wildcard segment as its name in upper case, the other text unchanged. -/
theorem routePath_colon_wildcards (r : RouteDefinition)
    (hm : ∀ m name, Piece.wildcard m name ∈ matchPieces r.FullPath.data 0 → m = ':')
    (ht : Piece.text ':' ∉ matchPieces r.FullPath.data 0) :
    routePath r = shownPath r := by
  have hw : ∀ m name, Piece.wildcard m name ∈ matchPieces r.FullPath.data 0 →
      m = ':' ∧ ∀ c ∈ name, isWordChar c = true :=
    fun m name h => ⟨hm m name h, (matchPieces_wildcard _ _ le_rfl m name h).2.2⟩
  have h := foldl_routesStep_pieces (matchPieces r.FullPath.data 0) [] (by simp) hw ht
  simp only [List.nil_append, matchPieces_source _ _ le_rfl] at h
  exact h

/-- C12 fails on the code: for the route `/assets/*filepath` the specification
shows the wildcard as `FILEPATH`, while `routes` leaves the path as it is,
because it only looks for the name behind a colon; and for
`/files/*path/:pathId` the search for `:path` hits the later wildcard
`:pathId`. Routes with `:` wildcards only come out as stated. -/
theorem routes_star_wildcard_not_shown :
    routes (sampleRoutesAction ["/assets/*filepath"]) = "[/assets/*filepath]"
    ∧ "[" ++ shownPath { FullPath := "/assets/*filepath" } ++ "]" = "[/assets/FILEPATH]"
    ∧ routes (sampleRoutesAction ["/files/*path/:pathId"]) = "[/files/*path/PATHId]"
    ∧ "[" ++ shownPath { FullPath := "/files/*path/:pathId" } ++ "]"
        = "[/files/PATH/PATHID]"
    ∧ routes (sampleRoutesAction ["/widgets/:id/parts/:partId"])
        = "[/widgets/ID/parts/PARTID]"
    ∧ routes (sampleRoutesAction ["/widgets/:id", "/w/:id"]) = "[(/widgets/ID|/w/ID)]" := by
  decide

end GenClient
